import Mathlib

set_option linter.unusedVariables false

/-!
Verification development for the HMM engine specified in spec.md of the
repository 2017B4/rinko.

The repository's own file `src/hmm.py` contains the parameter table
(`def_param`), the model assembly (`make_hmm`) and the driver functions
(`make_sample`, `Predict`, `Estimate`); the probabilistic algorithms
themselves (categorical sampling, forward scoring, Viterbi decoding,
Baum-Welch re-estimation) are delegated to the third-party `hmmlearn`
library and are reconstructed by the specification (spec.md sections 4.2
to 4.5).  Accordingly, `def_param`, `make_hmm`, `make_sample`, `Predict`
and `Estimate` below are shallow embeddings of the source, while the
algorithm definitions are modelled from the spec's explicit pseudo-code.

All probabilities are exact rationals; the spec's log-scale quantities are
represented in linear scale wherever a definition must stay executable
(`Real.log` is strictly monotone on positives, so order statements
transfer between the two scales), and `Real.log` appears only in theorem
statements.
-/

namespace HMM

/-- Discrete HMM parameter container (spec section 3): initial distribution
`startprob_`, transition matrix `transmat_`, emission matrix `emissionprob_`.
Field names follow the attribute names used in `src/hmm.py`. -/
structure HMModel (K M : ℕ) where
  startprob_ : Fin K → ℚ
  transmat_ : Fin K → Fin K → ℚ
  emissionprob_ : Fin K → Fin M → ℚ

/-- Model validity invariant (spec section 3): every probability is
nonnegative and every constrained row sums to exactly 1 (the embedding is
exact rational arithmetic, so the numeric tolerance of the spec is 0). -/
def IsValid {K M : ℕ} (m : HMModel K M) : Prop :=
  (∀ i, 0 ≤ m.startprob_ i) ∧ (∑ i, m.startprob_ i) = 1 ∧
  (∀ i j, 0 ≤ m.transmat_ i j) ∧ (∀ i, (∑ j, m.transmat_ i j) = 1) ∧
  (∀ i k, 0 ≤ m.emissionprob_ i k) ∧ (∀ i, (∑ k, m.emissionprob_ i k) = 1)

instance {K M : ℕ} (m : HMModel K M) : Decidable (IsValid m) := by
  unfold IsValid; infer_instance

/-- Modelled from the spec: one step of the forward recursion of the Scorer
(spec 4.3, missing from src/ — it lives inside `hmmlearn`):
`αₜ[i] = B[i][obsₜ] · Σⱼ αₜ₋₁[j]·A[j][i]`. -/
def forwardStep {K M : ℕ} (m : HMModel K M) (cur : Fin K → ℚ) (o : Fin M) :
    Fin K → ℚ :=
  fun i => m.emissionprob_ i o * ∑ j, cur j * m.transmat_ j i

/-- Modelled from the spec: running the forward recursion over the remaining
observations, starting from the vector `cur`. -/
def forwardVec {K M : ℕ} (m : HMModel K M) (cur : Fin K → ℚ) :
    List (Fin M) → (Fin K → ℚ)
  | [] => cur
  | o :: rest => forwardVec m (forwardStep m cur o) rest

/-- Modelled from the spec: `α₀[i] = π[i]·B[i][obs₀]` (spec 4.3). -/
def forwardInit {K M : ℕ} (m : HMModel K M) (o : Fin M) : Fin K → ℚ :=
  fun i => m.startprob_ i * m.emissionprob_ i o

/-- Modelled from the spec: the Scorer's linear-scale sequence likelihood via
the forward algorithm (spec 4.3, missing from src/): `Σᵢ α_{T-1}[i]`; the
empty sequence has likelihood 1 (log-likelihood 0).  The Scorer's
log-likelihood is `Real.log` of this value. -/
def likelihood {K M : ℕ} (m : HMModel K M) : List (Fin M) → ℚ
  | [] => 1
  | o :: rest => ∑ i, forwardVec m (forwardInit m o) rest i

/-- Modelled from the spec: the backward recursion (spec 4.5 step 2, missing
from src/): `β_{T-1}[i] = 1`; `βₜ[i] = Σⱼ A[i][j]·B[j][obsₜ₊₁]·βₜ₊₁[j]`.
`backwardVec m l i` is the backward variable at a time whose strictly later
observations are `l`. -/
def backwardVec {K M : ℕ} (m : HMModel K M) : List (Fin M) → (Fin K → ℚ)
  | [] => fun _ => 1
  | o :: rest => fun i =>
      ∑ j, m.transmat_ i j * m.emissionprob_ j o * backwardVec m rest j

/-- The dictionary `s` of `def_param` in src/hmm.py: initial-state
probabilities keyed by the two states 雨 (rain) and 晴れ (sunny). -/
structure StartDic where
  rain : ℚ
  sunny : ℚ

/-- One row of the transition dictionary `t` of `def_param`. -/
structure TransDic where
  rain : StartDic
  sunny : StartDic

/-- One row of the emission dictionary `e` of `def_param`, keyed by the
symbols 散歩 (walk), 買い物 (shop), 掃除 (clean). -/
structure EmitRow where
  walk : ℚ
  shop : ℚ
  clean : ℚ

/-- The emission dictionary `e` of `def_param`. -/
structure EmitDic where
  rain : EmitRow
  sunny : EmitRow

/-- The function `def_param` from src/hmm.py: the literal parameter tables (states,
observation symbols, initial, transition and emission probabilities). -/
def def_param : List String × List String × StartDic × TransDic × EmitDic :=
  (["雨", "晴れ"], ["散歩", "買い物", "掃除"],
   ⟨0.6, 0.4⟩,
   ⟨⟨0.7, 0.3⟩, ⟨0.4, 0.6⟩⟩,
   ⟨⟨0.1, 0.4, 0.5⟩, ⟨0.6, 0.3, 0.1⟩⟩)

/-- The function `make_hmm` from src/hmm.py: packs the dictionaries into dense arrays and
sets them as the model's `startprob_`, `transmat_` and `emissionprob_`.
The `states` and `observations` arguments are accepted and ignored exactly
as in the source, and no validation of any kind is performed. -/
def make_hmm (states observations : List String)
    (s : StartDic) (t : TransDic) (e : EmitDic) : HMModel 2 3 where
  startprob_ := ![s.rain, s.sunny]
  transmat_ := ![![t.rain.rain, t.rain.sunny], ![t.sunny.rain, t.sunny.sunny]]
  emissionprob_ := ![![e.rain.walk, e.rain.shop, e.rain.clean],
                    ![e.sunny.walk, e.sunny.shop, e.sunny.clean]]

/-- The concrete demonstration model built by the source's main block:
`make_hmm` applied to `def_param`. -/
def demoModel : HMModel 2 3 :=
  make_hmm def_param.1 def_param.2.1 def_param.2.2.1 def_param.2.2.2.1
    def_param.2.2.2.2

/-- Maximum of a vector over the (nonempty) state set; linear-scale analogue
of the spec's `maxᵢ` over log-probabilities. -/
def vmax {K : ℕ} [NeZero K] (f : Fin K → ℚ) : ℚ :=
  Finset.univ.sup' Finset.univ_nonempty f

/-- Modelled from the spec: one step of the Viterbi recursion (spec 4.4,
missing from src/): in linear scale,
`δₜ[i] = B[i][obsₜ] · maxⱼ(δₜ₋₁[j] · A[j][i])`. -/
def viterbiStep {K M : ℕ} [NeZero K] (m : HMModel K M) (cur : Fin K → ℚ)
    (o : Fin M) : Fin K → ℚ :=
  fun i => m.emissionprob_ i o * vmax (fun j => cur j * m.transmat_ j i)

/-- Modelled from the spec: running the Viterbi recursion over the remaining
observations. -/
def viterbiVec {K M : ℕ} [NeZero K] (m : HMModel K M) (cur : Fin K → ℚ) :
    List (Fin M) → (Fin K → ℚ)
  | [] => cur
  | o :: rest => viterbiVec m (viterbiStep m cur o) rest

/-- Modelled from the spec: the Viterbi path's probability in linear scale
(spec 4.4): `maxᵢ δ_{T-1}[i]`, with `δ₀ = α₀`; the Decoder's terminal
log-probability is `Real.log` of this value. -/
def viterbiProb {K M : ℕ} [NeZero K] (m : HMModel K M) : List (Fin M) → ℚ
  | [] => 1
  | o :: rest => vmax (viterbiVec m (forwardInit m o) rest)

/-- Lowest-index argmax over the state set (the spec's tie-break rule:
when several indices attain the maximum, the lowest index is selected). -/
def argmaxFin {K : ℕ} [NeZero K] (f : Fin K → ℚ) : Fin K :=
  (List.finRange K).foldl (fun best i => if f best < f i then i else best)
    ⟨0, Nat.pos_of_ne_zero (NeZero.ne K)⟩

/-- All δ vectors of the Viterbi recursion, oldest first. -/
def viterbiVecs {K M : ℕ} [NeZero K] (m : HMModel K M) (cur : Fin K → ℚ) :
    List (Fin M) → List (Fin K → ℚ)
  | [] => [cur]
  | o :: rest => cur :: viterbiVecs m (viterbiStep m cur o) rest

/-- Modelled from the spec: backtracking through the backpointers
`ψₜ₊₁[i] = argmaxⱼ δₜ[j]·A[j][i]` (spec 4.4); the first argument is the list
of earlier δ vectors, newest first. -/
def backtrack {K M : ℕ} [NeZero K] (m : HMModel K M) :
    List (Fin K → ℚ) → Fin K → List (Fin K)
  | [], i => [i]
  | δ :: earlier, i =>
      backtrack m earlier (argmaxFin fun j => δ j * m.transmat_ j i) ++ [i]

/-- Modelled from the spec: the maximum-probability state path, reconstructed
from the terminal argmax by backtracking (spec 4.4). -/
def viterbiPath {K M : ℕ} [NeZero K] (m : HMModel K M) (o : Fin M)
    (rest : List (Fin M)) : List (Fin K) :=
  match (viterbiVecs m (forwardInit m o) rest).reverse with
  | [] => []
  | δlast :: earlier => backtrack m earlier (argmaxFin δlast)

/-- Checks an observation list of raw symbol indices against the alphabet
bound `M`, returning the checked sequence or `none` if some index is out of
the range `[0, M)`. -/
def toSymbols (M : ℕ) : List ℕ → Option (List (Fin M))
  | [] => some []
  | o :: rest =>
      if h : o < M then (toSymbols M rest).map (fun l => ⟨o, h⟩ :: l) else none

/-- Modelled from the spec: the Decoder contract (spec 4.4, missing from
src/): rejects an empty sequence and any out-of-range symbol index before any
computation; otherwise returns the Viterbi path and its (linear-scale)
probability. -/
def decode {K M : ℕ} [NeZero K] (m : HMModel K M) (obs : List ℕ) :
    Except String (List (Fin K) × ℚ) :=
  match toSymbols M obs with
  | none => .error "IndexError: observation symbol out of range"
  | some [] => .error "empty observation sequence"
  | some (o :: rest) => .ok (viterbiPath m o rest, viterbiProb m (o :: rest))

/-- Modelled from the spec: categorical selection (spec 4.2): one uniform
draw `u` selects the first index whose cumulative probability exceeds it
(linear search over the cumulative sum). -/
def cumsel {K : ℕ} [NeZero K] (w : Fin K → ℚ) (u : ℚ) : Fin K :=
  ((List.finRange K).find? fun i =>
      u < ∑ j ∈ Finset.univ.filter (fun j => j ≤ i), w j).getD
    ⟨K - 1, Nat.sub_lt (Nat.pos_of_ne_zero (NeZero.ne K)) Nat.one_pos⟩

/-- Modelled from the spec: the chain of later states,
`stateₜ ~ A[stateₜ₋₁]` (spec 4.2), drawing the state at time `t` from the
supplied random stream's entry `t`. -/
def statesFrom {K M : ℕ} [NeZero K] (m : HMModel K M) (rng : ℕ → ℚ) :
    Fin K → ℕ → ℕ → List (Fin K)
  | _, 0, _ => []
  | prev, n + 1, t =>
      let s := cumsel (m.transmat_ prev) (rng t)
      s :: statesFrom m rng s n (t + 1)

/-- Modelled from the spec: the sampled state sequence: `state₀ ~ π`, then
the chain of later states (spec 4.2). -/
def sampleStates {K M : ℕ} [NeZero K] (m : HMModel K M) (rng : ℕ → ℚ) :
    ℕ → List (Fin K)
  | 0 => []
  | n + 1 =>
      let s0 := cumsel m.startprob_ (rng 0)
      s0 :: statesFrom m rng s0 n 1

/-- Modelled from the spec: the sampled observations,
`observationₜ ~ B[stateₜ]` (spec 4.2), drawing the observation at time `t`
from the stream's entry `T + t` (states consume entries `0..T-1`). -/
def sampleObs {K M : ℕ} [NeZero M] (m : HMModel K M) (rng : ℕ → ℚ) :
    List (Fin K) → ℕ → List (Fin M)
  | [], _ => []
  | s :: ss, t =>
      cumsel (fun k => m.emissionprob_ s k) (rng t) :: sampleObs m rng ss (t + 1)

/-- Modelled from the spec: the Sampler contract (spec 4.2, missing from
src/): the joint (observations, states) sample of length `T`, a pure function
of the model and the explicitly supplied random stream `rng`. -/
def sample {K M : ℕ} [NeZero K] [NeZero M] (m : HMModel K M) (T : ℕ)
    (rng : ℕ → ℚ) : List (Fin M) × List (Fin K) :=
  (sampleObs m rng (sampleStates m rng T) T, sampleStates m rng T)

/-- The function `make_sample` from src/hmm.py: draws `X1, Z1 = model.sample(10)` and
returns the pair (the console narration of the source is presentation only;
the `states`/`observations` label tuples are used only for printing). -/
def make_sample {K M : ℕ} [NeZero K] [NeZero M] (m : HMModel K M)
    (states observations : List String) (rng : ℕ → ℚ) :
    List (Fin M) × List (Fin K) :=
  sample m 10 rng

/-- The function `Predict` from src/hmm.py: decodes the observation sequence with the
Viterbi decoder (`model.predict(X1)`); the source only prints the resulting
path and its agreement count with `Z1`. -/
def Predict {K M : ℕ} [NeZero K] (m : HMModel K M) (X1 : List ℕ)
    (Z1 : List (Fin K)) : Except String (List (Fin K) × ℚ) :=
  decode m X1

/-- The forward variable `αₜ` for the observation sequence `o :: rest`
(spec 4.5 step 1), as a function of `t ∈ [0, T-1]`. -/
def alphaAt {K M : ℕ} (m : HMModel K M) (o : Fin M) (rest : List (Fin M))
    (t : ℕ) : Fin K → ℚ :=
  forwardVec m (forwardInit m o) (rest.take t)

/-- The backward variable `βₜ` for the observation sequence `o :: rest`
(spec 4.5 step 2), as a function of `t ∈ [0, T-1]`. -/
def betaAt {K M : ℕ} (m : HMModel K M) (rest : List (Fin M)) (t : ℕ) :
    Fin K → ℚ :=
  backwardVec m (rest.drop t)

/-- Modelled from the spec: the state-occupation posterior
`γₜ[i] ∝ αₜ[i]·βₜ[i]`, normalized over `i` at each `t` (spec 4.5 step 3). -/
def gammaAt {K M : ℕ} (m : HMModel K M) (o : Fin M) (rest : List (Fin M))
    (t : ℕ) (i : Fin K) : ℚ :=
  alphaAt m o rest t i * betaAt m rest t i /
    ∑ i', alphaAt m o rest t i' * betaAt m rest t i'

/-- Modelled from the spec: the transition posterior
`ξₜ[i][j] ∝ αₜ[i]·A[i][j]·B[j][obsₜ₊₁]·βₜ₊₁[j]`, normalized over `(i,j)` at
each `t ∈ [0, T-2]` (spec 4.5 step 4); `obsₜ₊₁` is entry `t` of `rest`. -/
def xiAt {K M : ℕ} (m : HMModel K M) (o : Fin M) (rest : List (Fin M))
    (t : ℕ) (i j : Fin K) : ℚ :=
  alphaAt m o rest t i * m.transmat_ i j * m.emissionprob_ j (rest.getD t o) *
      betaAt m rest (t + 1) j /
    ∑ i', ∑ j', alphaAt m o rest t i' * m.transmat_ i' j' *
      m.emissionprob_ j' (rest.getD t o) * betaAt m rest (t + 1) j'

/-- Modelled from the spec: one Baum-Welch iteration (spec 4.5 steps 1-6):
E-step posteriors `γ`, `ξ` from the forward-backward pass, then the M-step
re-estimates `π' = γ₀`, `A'[i][j] = Σₜξₜ[i][j] / Σₜγₜ[i]`,
`B'[i][k] = Σ_{obsₜ=k}γₜ[i] / Σₜγₜ[i]`, leaving a row unchanged when its
normalizing denominator is zero (step 6; for `π'` the normalizer is
`Σᵢα₀[i]β₀[i]`).  The empty sequence leaves the model unchanged. -/
def bwStep {K M : ℕ} (m : HMModel K M) : List (Fin M) → HMModel K M
  | [] => m
  | o :: rest =>
      { startprob_ := fun i =>
          if (∑ i', alphaAt m o rest 0 i' * betaAt m rest 0 i') = 0
          then m.startprob_ i else gammaAt m o rest 0 i
        transmat_ := fun i j =>
          if (∑ t ∈ Finset.range rest.length, gammaAt m o rest t i) = 0
          then m.transmat_ i j
          else (∑ t ∈ Finset.range rest.length, xiAt m o rest t i j) /
               (∑ t ∈ Finset.range rest.length, gammaAt m o rest t i)
        emissionprob_ := fun i k =>
          if (∑ t ∈ Finset.range (rest.length + 1), gammaAt m o rest t i) = 0
          then m.emissionprob_ i k
          else (∑ t ∈ (Finset.range (rest.length + 1)).filter
                  (fun t => (o :: rest).getD t o = k), gammaAt m o rest t i) /
               (∑ t ∈ Finset.range (rest.length + 1), gammaAt m o rest t i) }

/-- Modelled from the spec: the Estimator's iteration loop (spec 4.5):
repeat `bwStep` until the likelihood improvement drops below the tolerance
(convergence, reported `true`) or the fuel `maxIter` runs out (reported
`false`), also returning the number of iterations run.  The spec's log-scale
tolerance is modelled on the exact linear scale. -/
def fitAux {K M : ℕ} (obs : List (Fin M)) (tol : ℚ) :
    ℕ → HMModel K M → ℕ → HMModel K M × ℕ × Bool
  | 0, m, done => (m, done, false)
  | fuel + 1, m, done =>
      let m' := bwStep m obs
      if |likelihood m' obs - likelihood m obs| < tol then (m', done + 1, true)
      else fitAux obs tol fuel m' (done + 1)

/-- Modelled from the spec: the Estimator contract
`fit(initial model, observations, max_iterations, tolerance)` (spec 4.5);
the initial model is supplied by the caller. -/
def fit {K M : ℕ} (m0 : HMModel K M) (obs : List (Fin M)) (maxIter : ℕ)
    (tol : ℚ) : HMModel K M × ℕ × Bool :=
  fitAux obs tol maxIter m0 0

/-- The function `Estimate` from src/hmm.py: builds a fresh model (its initial parameters
`m0` come from the library's internal initialization, here an explicit
argument per spec 4.5), fits it on `X1` with `n_iter=10000` (the library's
default tolerance is `0.01`), and samples 10 steps from the fitted model.
The caller's `model` is returned untouched alongside the new model and the
post-fit sample. -/
def Estimate (model : HMModel 2 3) (X1 : List (Fin 3)) (Z1 : List (Fin 2))
    (m0 : HMModel 2 3) (rng : ℕ → ℚ) :
    HMModel 2 3 × HMModel 2 3 × (List (Fin 3) × List (Fin 2)) :=
  let remodel := (fit m0 X1 10000 (1 / 100)).1
  (model, remodel, sample remodel 10 rng)

/-- Probability of the observations `l` along one fixed state path `p`,
entering with state-weight vector `d` (the quantity the forward recursion
sums and the Viterbi recursion maximizes; spec sections 4.3 and 4.4). -/
def pathProbFrom {K M : ℕ} (m : HMModel K M) (d : Fin K → ℚ) :
    (l : List (Fin M)) → (Fin l.length → Fin K) → ℚ
  | [], _ => 1
  | o :: rest, p =>
      d (p ⟨0, Nat.succ_pos rest.length⟩) *
        m.emissionprob_ (p ⟨0, Nat.succ_pos rest.length⟩) o *
        pathProbFrom m (m.transmat_ (p ⟨0, Nat.succ_pos rest.length⟩)) rest
          (fun t => p ⟨t.1 + 1, Nat.succ_lt_succ t.2⟩)

/-- Joint probability of a complete state path and the observation
sequence under the model. -/
def fullPathProb {K M : ℕ} (m : HMModel K M) (l : List (Fin M))
    (p : Fin l.length → Fin K) : ℚ :=
  pathProbFrom m m.startprob_ l p

/-- Totalization of a finite state path to all of `ℕ` (indices beyond the
end are clamped to the last position); a bookkeeping device for stating
time-indexed identities without dependent indices. -/
def pext {K n : ℕ} (p : Fin (n + 1) → Fin K) : ℕ → Fin K :=
  fun t => p ⟨min t n, Nat.lt_succ_of_le (Nat.min_le_right t n)⟩

/-- The maximal continuation probability over all state paths emitting the
remaining observations, starting from a given state: the Viterbi analogue of
`backwardVec` (max in place of sum). -/
def backwardMax {K M : ℕ} [NeZero K] (m : HMModel K M) :
    List (Fin M) → (Fin K → ℚ)
  | [] => fun _ => 1
  | o :: rest => fun i =>
      vmax (fun j => m.transmat_ i j * m.emissionprob_ j o * backwardMax m rest j)

lemma statesFrom_length {K M : ℕ} [NeZero K] (m : HMModel K M) (rng : ℕ → ℚ)
    (n : ℕ) : ∀ prev t, (statesFrom m rng prev n t).length = n := by
  induction n with
  | zero => intro prev t; rfl
  | succ n ih => intro prev t; simp [statesFrom, ih]

lemma sampleStates_length {K M : ℕ} [NeZero K] (m : HMModel K M)
    (rng : ℕ → ℚ) (T : ℕ) : (sampleStates m rng T).length = T := by
  cases T with
  | zero => rfl
  | succ n => simp [sampleStates, statesFrom_length]

lemma sampleObs_length {K M : ℕ} [NeZero M] (m : HMModel K M) (rng : ℕ → ℚ) :
    ∀ (ss : List (Fin K)) (t : ℕ), (sampleObs m rng ss t).length = ss.length := by
  intro ss
  induction ss with
  | nil => intro t; rfl
  | cons s ss ih => intro t; simp [sampleObs, ih]

lemma sample_length {K M : ℕ} [NeZero K] [NeZero M] (m : HMModel K M)
    (T : ℕ) (rng : ℕ → ℚ) :
    (sample m T rng).1.length = T ∧ (sample m T rng).2.length = T := by
  constructor
  · simp [sample, sampleObs_length, sampleStates_length]
  · simp [sample, sampleStates_length]

lemma statesFrom_congr {K M : ℕ} [NeZero K] (m : HMModel K M)
    (rng rng' : ℕ → ℚ) (n : ℕ) :
    ∀ prev t, (∀ k, k < t + n → rng k = rng' k) →
      statesFrom m rng prev n t = statesFrom m rng' prev n t := by
  induction n with
  | zero => intro prev t h; rfl
  | succ n ih =>
      intro prev t h
      have ht : rng t = rng' t := h t (by omega)
      simp only [statesFrom, ht]
      rw [ih _ (t + 1) fun k hk => h k (by omega)]

lemma sampleObs_congr {K M : ℕ} [NeZero M] (m : HMModel K M)
    (rng rng' : ℕ → ℚ) :
    ∀ (ss : List (Fin K)) (t : ℕ), (∀ k, k < t + ss.length → rng k = rng' k) →
      sampleObs m rng ss t = sampleObs m rng' ss t := by
  intro ss
  induction ss with
  | nil => intro t h; rfl
  | cons s ss ih =>
      intro t h
      have ht : rng t = rng' t := h t (by simp)
      simp only [sampleObs, ht]
      rw [ih (t + 1) fun k hk => h k (by simp at hk ⊢; omega)]

lemma toSymbols_eq_none_iff (M : ℕ) (obs : List ℕ) :
    toSymbols M obs = none ↔ ∃ o ∈ obs, M ≤ o := by
  induction obs with
  | nil => simp [toSymbols]
  | cons o rest ih =>
      by_cases h : o < M
      · simp [toSymbols, h, Option.map_eq_none', ih, Nat.not_le.2 h]
      · simp [toSymbols, h, Nat.not_lt.1 h]

lemma toSymbols_length (M : ℕ) :
    ∀ (obs : List ℕ) (l : List (Fin M)), toSymbols M obs = some l →
      l.length = obs.length := by
  intro obs
  induction obs with
  | nil => intro l h; simp [toSymbols] at h; simp [← h]
  | cons o rest ih =>
      intro l h
      by_cases ho : o < M
      · simp only [toSymbols, dif_pos ho, Option.map_eq_some'] at h
        obtain ⟨l', hl', rfl⟩ := h
        simp [ih l' hl']
      · simp [toSymbols, dif_neg ho] at h

lemma demoModel_valid : IsValid demoModel := by
  refine ⟨?_, ?_, ?_, ?_, ?_, ?_⟩
  · intro i
    fin_cases i <;> norm_num [demoModel, make_hmm, def_param]
  · norm_num [demoModel, make_hmm, def_param, Fin.sum_univ_two]
  · intro i j
    fin_cases i <;> fin_cases j <;> norm_num [demoModel, make_hmm, def_param]
  · intro i
    fin_cases i <;> norm_num [demoModel, make_hmm, def_param, Fin.sum_univ_two]
  · intro i k
    fin_cases i <;> fin_cases k <;> norm_num [demoModel, make_hmm, def_param]
  · intro i
    fin_cases i <;> norm_num [demoModel, make_hmm, def_param, Fin.sum_univ_three]

/-- C9: the default parameter set returned by `def_param` satisfies the Model
distribution invariants exactly: the initial probabilities sum to 1, each row
of the transition dictionary sums to 1, each row of the emission dictionary
sums to 1, and every individual probability lies in `[0,1]` (stated both on
the dictionaries and on the assembled `demoModel`). -/
theorem claim_C9_def_param_invariants :
    (def_param.2.2.1.rain + def_param.2.2.1.sunny = 1) ∧
    (def_param.2.2.2.1.rain.rain + def_param.2.2.2.1.rain.sunny = 1) ∧
    (def_param.2.2.2.1.sunny.rain + def_param.2.2.2.1.sunny.sunny = 1) ∧
    (def_param.2.2.2.2.rain.walk + def_param.2.2.2.2.rain.shop +
      def_param.2.2.2.2.rain.clean = 1) ∧
    (def_param.2.2.2.2.sunny.walk + def_param.2.2.2.2.sunny.shop +
      def_param.2.2.2.2.sunny.clean = 1) ∧
    IsValid demoModel ∧
    (∀ i, demoModel.startprob_ i ≤ 1) ∧
    (∀ i j, demoModel.transmat_ i j ≤ 1) ∧
    (∀ i k, demoModel.emissionprob_ i k ≤ 1) := by
  refine ⟨by norm_num [def_param], by norm_num [def_param],
    by norm_num [def_param], by norm_num [def_param], by norm_num [def_param],
    demoModel_valid, ?_, ?_, ?_⟩
  · intro i
    fin_cases i <;> norm_num [demoModel, make_hmm, def_param]
  · intro i j
    fin_cases i <;> fin_cases j <;> norm_num [demoModel, make_hmm, def_param]
  · intro i k
    fin_cases i <;> fin_cases k <;> norm_num [demoModel, make_hmm, def_param]

/-- C3 counterexample: `make_hmm` performs no construction-time validation.
On an input whose initial-probability row sums to `9/5`, it still returns a
`Model`, with the offending row stored verbatim (no error, no
renormalization), so its row-sum invariant is violated — refuting both
"never silently … returns a Model" and "every returned Model satisfies the
row-sum invariant". -/
theorem claim_C3_counterexample :
    (make_hmm ["雨", "晴れ"] ["散歩", "買い物", "掃除"] ⟨0.9, 0.9⟩
        def_param.2.2.2.1 def_param.2.2.2.2).startprob_ = ![0.9, 0.9] ∧
    (∑ i, (make_hmm ["雨", "晴れ"] ["散歩", "買い物", "掃除"] ⟨0.9, 0.9⟩
        def_param.2.2.2.1 def_param.2.2.2.2).startprob_ i) ≠ 1 := by
  refine ⟨rfl, ?_⟩
  norm_num [make_hmm, Fin.sum_univ_two]

/-- C3 amended: `make_hmm` validates nothing and renormalizes nothing: for
every input it returns a Model whose `startprob_`, `transmat_` and
`emissionprob_` are exactly the supplied dictionary entries, and it has no
error outcome at all.  (The model is only checked later, inside the
library's score/sample/fit calls, not at construction.) -/
theorem claim_C3_make_hmm_echoes_input (states observations : List String)
    (s : StartDic) (t : TransDic) (e : EmitDic) :
    (make_hmm states observations s t e).startprob_ = ![s.rain, s.sunny] ∧
    (make_hmm states observations s t e).transmat_ =
      ![![t.rain.rain, t.rain.sunny], ![t.sunny.rain, t.sunny.sunny]] ∧
    (make_hmm states observations s t e).emissionprob_ =
      ![![e.rain.walk, e.rain.shop, e.rain.clean],
        ![e.sunny.walk, e.sunny.shop, e.sunny.clean]] :=
  ⟨rfl, rfl, rfl⟩

/-- C4: Sampler determinism.  The sample is a function of the model, the
length and the explicitly supplied random stream only, and it consumes only
the first `2T` entries of that stream (`T` state draws, then `T` observation
draws): two streams that agree there — in particular two streams generated
from the same seed — produce identical (observations, states) pairs. -/
theorem claim_C4_sampler_determinism {K M : ℕ} [NeZero K] [NeZero M]
    (m : HMModel K M) (hm : IsValid m) (T : ℕ) (rng rng' : ℕ → ℚ)
    (h : ∀ n, n < 2 * T → rng n = rng' n) :
    sample m T rng = sample m T rng' := by
  have hstates : sampleStates m rng T = sampleStates m rng' T := by
    cases T with
    | zero => rfl
    | succ n =>
        have h0 : rng 0 = rng' 0 := h 0 (by omega)
        simp only [sampleStates, h0]
        rw [statesFrom_congr m rng rng' n _ 1 fun k hk => h k (by omega)]
  have hlen := sampleStates_length m rng' T
  unfold sample
  rw [hstates, sampleObs_congr m rng rng' _ T fun k hk => h k (by omega)]

/-- C4 witness at concrete inputs. -/
theorem claim_C4_witness :
    sample demoModel 1 (fun n => if n < 2 then 1/3 else 0) =
      sample demoModel 1 (fun n => if n < 2 then 1/3 else 1) :=
  claim_C4_sampler_determinism demoModel demoModel_valid 1 _ _
    (fun n hn => by interval_cases n <;> rfl)

/-- C6: boundary behaviour at `T = 0`: the Scorer's log-likelihood of the
empty observation sequence is exactly `log 1 = 0`, and the Sampler invoked
with length 0 returns two empty sequences. -/
theorem claim_C6_empty_boundary {K M : ℕ} [NeZero K] [NeZero M]
    (m : HMModel K M) (hm : IsValid m) (rng : ℕ → ℚ) :
    Real.log ((likelihood m [] : ℚ) : ℝ) = 0 ∧ sample m 0 rng = ([], []) := by
  constructor
  · show Real.log ((1 : ℚ) : ℝ) = 0
    simp
  · rfl

/-- C6 witness at the demonstration model. -/
theorem claim_C6_witness :
    Real.log ((likelihood demoModel [] : ℚ) : ℝ) = 0 ∧
      sample demoModel 0 (fun _ => 1/2) = ([], []) :=
  claim_C6_empty_boundary demoModel demoModel_valid (fun _ => 1/2)

/-- C7: the Decoder returns an error, and no state path, exactly when the
observation sequence is empty or references a symbol index outside
`[0, M)`; the check happens on the raw input before any Viterbi computation
(in this pure embedding the inputs cannot be mutated). -/
theorem claim_C7_decode_error_iff {K M : ℕ} [NeZero K] (m : HMModel K M)
    (obs : List ℕ) :
    (∃ e, decode m obs = .error e) ↔ (obs = [] ∨ ∃ o ∈ obs, M ≤ o) := by
  unfold decode
  rcases hts : toSymbols M obs with _ | l
  · simp only [hts]
    constructor
    · intro _
      exact Or.inr ((toSymbols_eq_none_iff M obs).1 hts)
    · intro _
      exact ⟨"IndexError: observation symbol out of range", rfl⟩
  · have hlen := toSymbols_length M obs l hts
    cases l with
    | nil =>
        have hobs : obs = [] := by
          simpa using List.length_eq_zero.1 hlen.symm
        simp only [hts]
        constructor
        · intro _; exact Or.inl hobs
        · intro _; exact ⟨"empty observation sequence", rfl⟩
    | cons o rest =>
        simp only [hts]
        constructor
        · rintro ⟨e, he⟩
          exact absurd he (by simp)
        · rintro (hobs | hout)
          · rw [hobs] at hlen; simp at hlen
          · have : toSymbols M obs = none :=
              (toSymbols_eq_none_iff M obs).2 hout
            rw [hts] at this
            exact absurd this (by simp)

/-- C7 witness: a symbol index `5 ≥ 3` makes the decoder reject, and the
equivalence certifies it. -/
theorem claim_C7_witness :
    (∃ e, decode demoModel [5] = .error e) ↔
      (([5] : List ℕ) = [] ∨ ∃ o ∈ ([5] : List ℕ), 3 ≤ o) :=
  claim_C7_decode_error_iff demoModel [5]

/-- C8: the Estimator never mutates the caller's model: `Estimate` hands the
original model back unchanged (so pre- and post-estimation parameters can be
compared), and the fitted model it produces is a fresh value that does not
depend on the caller's model at all. -/
theorem claim_C8_estimate_frame (model model' : HMModel 2 3)
    (X1 : List (Fin 3)) (Z1 : List (Fin 2)) (m0 : HMModel 2 3)
    (rng : ℕ → ℚ) :
    (Estimate model X1 Z1 m0 rng).1 = model ∧
    (Estimate model X1 Z1 m0 rng).2.1 = (Estimate model' X1 Z1 m0 rng).2.1 :=
  ⟨rfl, rfl⟩

lemma forwardVec_append {K M : ℕ} (m : HMModel K M) (l1 : List (Fin M)) :
    ∀ (l2 : List (Fin M)) (cur : Fin K → ℚ),
      forwardVec m cur (l1 ++ l2) = forwardVec m (forwardVec m cur l1) l2 := by
  induction l1 with
  | nil => intro l2 cur; rfl
  | cons o os ih => intro l2 cur; simp [forwardVec, ih]

lemma sum_mul_backward_eq_sum_forward {K M : ℕ} (m : HMModel K M)
    (l : List (Fin M)) :
    ∀ cur : Fin K → ℚ,
      (∑ i, cur i * backwardVec m l i) = ∑ i, forwardVec m cur l i := by
  induction l with
  | nil => intro cur; simp [backwardVec, forwardVec]
  | cons o os ih =>
      intro cur
      simp only [backwardVec, forwardVec]
      rw [← ih (forwardStep m cur o)]
      simp only [Finset.mul_sum]
      rw [Finset.sum_comm]
      refine Finset.sum_congr rfl fun j _ => ?_
      simp only [forwardStep]
      rw [Finset.mul_sum, Finset.sum_mul]
      exact Finset.sum_congr rfl fun i _ => by ring

lemma sum_alphaAt_betaAt {K M : ℕ} (m : HMModel K M) (o : Fin M)
    (rest : List (Fin M)) (t : ℕ) :
    (∑ i, alphaAt m o rest t i * betaAt m rest t i) =
      likelihood m (o :: rest) := by
  unfold alphaAt betaAt
  rw [sum_mul_backward_eq_sum_forward, ← forwardVec_append,
    List.take_append_drop]
  rfl

/-- C5: forward/backward round-trip consistency.  For a validated model and
the (non-empty) observation sequence `o :: rest`, at every time index `t`
the inner product `Σᵢ αₜ[i]·βₜ[i]` of the Estimator's forward and backward
variables equals the linear-scale likelihood of the whole sequence (the same
value for all `t`). -/
theorem claim_C5_forward_backward_consistency {K M : ℕ} (m : HMModel K M)
    (hm : IsValid m) (o : Fin M) (rest : List (Fin M)) (t : ℕ)
    (ht : t < (o :: rest).length) :
    (∑ i, alphaAt m o rest t i * betaAt m rest t i) =
      likelihood m (o :: rest) :=
  sum_alphaAt_betaAt m o rest t

/-- C5 witness at the demonstration model, `obs = [散歩, 買い物]`, `t = 1`. -/
theorem claim_C5_witness :
    (∑ i, alphaAt demoModel 0 [1] 1 i * betaAt demoModel [1] 1 i) =
      likelihood demoModel [0, 1] :=
  claim_C5_forward_backward_consistency demoModel demoModel_valid 0 [1] 1
    (by norm_num)

/-- C10: every sampling call in the program requests length 10:
`make_sample` returns an observation sequence and a state sequence of length
exactly 10 (in particular of equal length), and the post-fit sample drawn in
`Estimate` likewise has both components of length 10. -/
theorem claim_C10_sample_length_ten {K M : ℕ} [NeZero K] [NeZero M]
    (m : HMModel K M) (states observations : List String) (rng : ℕ → ℚ)
    (model : HMModel 2 3) (X1 : List (Fin 3)) (Z1 : List (Fin 2))
    (m0 : HMModel 2 3) (rng' : ℕ → ℚ) :
    (make_sample m states observations rng).1.length = 10 ∧
    (make_sample m states observations rng).2.length = 10 ∧
    (Estimate model X1 Z1 m0 rng').2.2.1.length = 10 ∧
    (Estimate model X1 Z1 m0 rng').2.2.2.length = 10 := by
  refine ⟨?_, ?_, ?_, ?_⟩
  · exact (sample_length m 10 rng).1
  · exact (sample_length m 10 rng).2
  · exact (sample_length _ 10 rng').1
  · exact (sample_length _ 10 rng').2

/-- C10 witness at the demonstration model and concrete inputs. -/
theorem claim_C10_witness :
    (make_sample demoModel ["雨", "晴れ"] ["散歩", "買い物", "掃除"]
      (fun _ => 1/2)).1.length = 10 ∧
    (make_sample demoModel ["雨", "晴れ"] ["散歩", "買い物", "掃除"]
      (fun _ => 1/2)).2.length = 10 ∧
    (Estimate demoModel [0, 1] [0] demoModel (fun _ => 1/3)).2.2.1.length = 10 ∧
    (Estimate demoModel [0, 1] [0] demoModel (fun _ => 1/3)).2.2.2.length = 10 :=
  claim_C10_sample_length_ten demoModel ["雨", "晴れ"] ["散歩", "買い物", "掃除"]
    (fun _ => 1/2) demoModel [0, 1] [0] demoModel (fun _ => 1/3)

lemma mul_sup'_of_nonneg {ι : Type*} (s : Finset ι) (H : s.Nonempty)
    (f : ι → ℚ) (c : ℚ) (hc : 0 ≤ c) :
    c * s.sup' H f = s.sup' H fun x => c * f x := by
  apply le_antisymm
  · obtain ⟨y, hy, hyeq⟩ := Finset.exists_mem_eq_sup' H f
    rw [hyeq]
    exact Finset.le_sup' (fun x => c * f x) hy
  · exact Finset.sup'_le _ _ fun x hx =>
      mul_le_mul_of_nonneg_left (Finset.le_sup' f hx) hc

lemma sup'_mul_of_nonneg {ι : Type*} (s : Finset ι) (H : s.Nonempty)
    (f : ι → ℚ) (c : ℚ) (hc : 0 ≤ c) :
    s.sup' H f * c = s.sup' H fun x => f x * c := by
  rw [mul_comm, mul_sup'_of_nonneg s H f c hc]
  exact Finset.sup'_congr H rfl fun x _ => mul_comm c (f x)

lemma sum_paths_succ {K n : ℕ} (g : (Fin (n + 1) → Fin K) → ℚ) :
    (∑ p : Fin (n + 1) → Fin K, g p) =
      ∑ i : Fin K, ∑ q : Fin n → Fin K, g (Fin.cons i q) := by
  rw [← Equiv.sum_comp (Fin.consEquiv fun _ => Fin K) g, Fintype.sum_prod_type]
  rfl

lemma sup'_paths_succ {K n : ℕ} [NeZero K] (g : (Fin (n + 1) → Fin K) → ℚ) :
    Finset.univ.sup' Finset.univ_nonempty g =
      Finset.univ.sup' Finset.univ_nonempty (fun i : Fin K =>
        Finset.univ.sup' Finset.univ_nonempty
          (fun q : Fin n → Fin K => g (Fin.cons i q))) := by
  apply le_antisymm
  · apply Finset.sup'_le
    intro p _
    have h1 : g p = g (Fin.cons (p 0) (Fin.tail p)) := by rw [Fin.cons_self_tail]
    rw [h1]
    exact le_trans
      (Finset.le_sup' (fun q => g (Fin.cons (p 0) q))
        (Finset.mem_univ (Fin.tail p)))
      (Finset.le_sup' (fun i : Fin K => Finset.univ.sup' Finset.univ_nonempty
        (fun q : Fin n → Fin K => g (Fin.cons i q))) (Finset.mem_univ (p 0)))
  · apply Finset.sup'_le
    intro i _
    apply Finset.sup'_le
    intro q _
    exact Finset.le_sup' g (Finset.mem_univ (Fin.cons i q))

lemma pathProbFrom_cons {K M : ℕ} (m : HMModel K M) (d : Fin K → ℚ)
    (o : Fin M) (os : List (Fin M)) (i : Fin K) (q : Fin os.length → Fin K) :
    pathProbFrom m d (o :: os) (Fin.cons i q) =
      d i * m.emissionprob_ i o * pathProbFrom m (m.transmat_ i) os q := rfl

lemma pathProbFrom_nonneg {K M : ℕ} (m : HMModel K M)
    (hA : ∀ i j, 0 ≤ m.transmat_ i j) (hB : ∀ i k, 0 ≤ m.emissionprob_ i k) :
    ∀ (l : List (Fin M)) (d : Fin K → ℚ), (∀ i, 0 ≤ d i) →
      ∀ p : Fin l.length → Fin K, 0 ≤ pathProbFrom m d l p := by
  intro l
  induction l with
  | nil => intro d hd p; exact zero_le_one
  | cons o os ih =>
      intro d hd p
      have h0 : (0 : ℚ) ≤ d (p ⟨0, Nat.succ_pos os.length⟩) *
          m.emissionprob_ (p ⟨0, Nat.succ_pos os.length⟩) o :=
        mul_nonneg (hd _) (hB _ _)
      exact mul_nonneg h0 (ih _ (hA _) _)

lemma backwardVec_eq_sum_paths {K M : ℕ} (m : HMModel K M) :
    ∀ (l : List (Fin M)) (i : Fin K),
      backwardVec m l i =
        ∑ r : Fin l.length → Fin K, pathProbFrom m (m.transmat_ i) l r := by
  intro l
  induction l with
  | nil => intro i; simp [backwardVec, pathProbFrom]
  | cons o os ih =>
      intro i
      simp only [List.length_cons]
      rw [sum_paths_succ
        (fun r => pathProbFrom m (m.transmat_ i) (o :: os) r)]
      simp only [pathProbFrom_cons]
      rw [backwardVec]
      refine Finset.sum_congr rfl fun j _ => ?_
      rw [ih j, Finset.mul_sum]

lemma likelihood_eq_sum_paths {K M : ℕ} (m : HMModel K M) (o : Fin M)
    (rest : List (Fin M)) :
    likelihood m (o :: rest) =
      ∑ p : Fin (o :: rest).length → Fin K, fullPathProb m (o :: rest) p := by
  have h1 : likelihood m (o :: rest) =
      ∑ i, forwardInit m o i * backwardVec m rest i := by
    rw [sum_mul_backward_eq_sum_forward]
    rfl
  rw [h1]
  simp only [List.length_cons]
  rw [sum_paths_succ (fun p => fullPathProb m (o :: rest) p)]
  refine Finset.sum_congr rfl fun i _ => ?_
  rw [backwardVec_eq_sum_paths, Finset.mul_sum]
  refine Finset.sum_congr rfl fun r _ => ?_
  show forwardInit m o i * pathProbFrom m (m.transmat_ i) rest r =
    m.startprob_ i * m.emissionprob_ i o * pathProbFrom m (m.transmat_ i) rest r
  rfl

lemma backwardMax_nonneg {K M : ℕ} [NeZero K] (m : HMModel K M)
    (hA : ∀ i j, 0 ≤ m.transmat_ i j) (hB : ∀ i k, 0 ≤ m.emissionprob_ i k) :
    ∀ (l : List (Fin M)) (i : Fin K), 0 ≤ backwardMax m l i := by
  intro l
  induction l with
  | nil => intro i; exact zero_le_one
  | cons o os ih =>
      intro i
      refine le_trans ?_ (Finset.le_sup' _ (Finset.mem_univ i))
      exact mul_nonneg (mul_nonneg (hA _ _) (hB _ _)) (ih i)

lemma backwardMax_eq_sup_paths {K M : ℕ} [NeZero K] (m : HMModel K M)
    (hA : ∀ i j, 0 ≤ m.transmat_ i j) (hB : ∀ i k, 0 ≤ m.emissionprob_ i k) :
    ∀ (l : List (Fin M)) (i : Fin K),
      backwardMax m l i =
        Finset.univ.sup' Finset.univ_nonempty
          (fun r : Fin l.length → Fin K =>
            pathProbFrom m (m.transmat_ i) l r) := by
  intro l
  induction l with
  | nil =>
      intro i
      simp [backwardMax, pathProbFrom]
  | cons o os ih =>
      intro i
      simp only [List.length_cons]
      rw [sup'_paths_succ
        (fun r => pathProbFrom m (m.transmat_ i) (o :: os) r)]
      simp only [pathProbFrom_cons]
      rw [backwardMax]
      unfold vmax
      refine Finset.sup'_congr Finset.univ_nonempty rfl fun j _ => ?_
      rw [ih j, mul_sup'_of_nonneg _ _ _ _ (mul_nonneg (hA _ _) (hB _ _))]

lemma viterbiStep_nonneg {K M : ℕ} [NeZero K] (m : HMModel K M)
    (hA : ∀ i j, 0 ≤ m.transmat_ i j) (hB : ∀ i k, 0 ≤ m.emissionprob_ i k)
    (cur : Fin K → ℚ) (hcur : ∀ i, 0 ≤ cur i) (o : Fin M) :
    ∀ i, 0 ≤ viterbiStep m cur o i := by
  intro i
  refine mul_nonneg (hB _ _) ?_
  refine le_trans (mul_nonneg (hcur i) (hA i i)) ?_
  exact Finset.le_sup' (fun j => cur j * m.transmat_ j i) (Finset.mem_univ i)

lemma vmax_viterbiVec_eq {K M : ℕ} [NeZero K] (m : HMModel K M)
    (hA : ∀ i j, 0 ≤ m.transmat_ i j) (hB : ∀ i k, 0 ≤ m.emissionprob_ i k) :
    ∀ (l : List (Fin M)) (cur : Fin K → ℚ), (∀ i, 0 ≤ cur i) →
      vmax (viterbiVec m cur l) = vmax (fun i => cur i * backwardMax m l i) := by
  intro l
  induction l with
  | nil =>
      intro cur hcur
      unfold vmax
      exact Finset.sup'_congr Finset.univ_nonempty rfl fun i _ => by
        simp [backwardMax, viterbiVec]
  | cons o os ih =>
      intro cur hcur
      have step1 : vmax (viterbiVec m cur (o :: os)) =
          vmax (fun i => viterbiStep m cur o i * backwardMax m os i) := by
        rw [viterbiVec]
        exact ih (viterbiStep m cur o) (viterbiStep_nonneg m hA hB cur hcur o)
      rw [step1]
      have step2 : ∀ i, viterbiStep m cur o i * backwardMax m os i =
          Finset.univ.sup' Finset.univ_nonempty
            (fun j => cur j * m.transmat_ j i *
              (m.emissionprob_ i o * backwardMax m os i)) := by
        intro i
        have hc : (0 : ℚ) ≤ m.emissionprob_ i o * backwardMax m os i :=
          mul_nonneg (hB _ _) (backwardMax_nonneg m hA hB os i)
        calc viterbiStep m cur o i * backwardMax m os i
            = vmax (fun j => cur j * m.transmat_ j i) *
                (m.emissionprob_ i o * backwardMax m os i) := by
              unfold viterbiStep; ring
          _ = Finset.univ.sup' Finset.univ_nonempty
                (fun j => cur j * m.transmat_ j i *
                  (m.emissionprob_ i o * backwardMax m os i)) := by
              unfold vmax
              exact sup'_mul_of_nonneg _ _ _ _ hc
      have step3 : vmax (fun i => viterbiStep m cur o i * backwardMax m os i) =
          Finset.univ.sup' Finset.univ_nonempty (fun i : Fin K =>
            Finset.univ.sup' Finset.univ_nonempty
              (fun j : Fin K => cur j * m.transmat_ j i *
                (m.emissionprob_ i o * backwardMax m os i))) := by
        unfold vmax
        exact Finset.sup'_congr Finset.univ_nonempty rfl fun i _ => step2 i
      rw [step3, Finset.sup'_comm]
      unfold vmax
      refine Finset.sup'_congr Finset.univ_nonempty rfl fun j _ => ?_
      rw [backwardMax]
      unfold vmax
      rw [mul_sup'_of_nonneg _ _ _ _ (hcur j)]
      refine Finset.sup'_congr Finset.univ_nonempty rfl fun i _ => by ring

lemma viterbiProb_eq_sup_paths {K M : ℕ} [NeZero K] (m : HMModel K M)
    (hpi : ∀ i, 0 ≤ m.startprob_ i)
    (hA : ∀ i j, 0 ≤ m.transmat_ i j) (hB : ∀ i k, 0 ≤ m.emissionprob_ i k)
    (o : Fin M) (rest : List (Fin M)) :
    viterbiProb m (o :: rest) =
      Finset.univ.sup' Finset.univ_nonempty
        (fun p : Fin (o :: rest).length → Fin K =>
          fullPathProb m (o :: rest) p) := by
  have hinit : ∀ i, 0 ≤ forwardInit m o i := fun i =>
    mul_nonneg (hpi i) (hB i o)
  rw [viterbiProb, vmax_viterbiVec_eq m hA hB rest (forwardInit m o) hinit]
  simp only [List.length_cons]
  rw [sup'_paths_succ (fun p => fullPathProb m (o :: rest) p)]
  unfold vmax
  refine Finset.sup'_congr Finset.univ_nonempty rfl fun i _ => ?_
  rw [backwardMax_eq_sup_paths m hA hB,
    mul_sup'_of_nonneg _ _ _ _ (hinit i)]
  refine Finset.sup'_congr Finset.univ_nonempty rfl fun r _ => ?_
  show forwardInit m o i * pathProbFrom m (m.transmat_ i) rest r =
    m.startprob_ i * m.emissionprob_ i o * pathProbFrom m (m.transmat_ i) rest r
  rfl

lemma forwardStep_nonneg {K M : ℕ} (m : HMModel K M)
    (hA : ∀ i j, 0 ≤ m.transmat_ i j) (hB : ∀ i k, 0 ≤ m.emissionprob_ i k)
    (cur : Fin K → ℚ) (hcur : ∀ i, 0 ≤ cur i) (o : Fin M) :
    ∀ i, 0 ≤ forwardStep m cur o i := fun i =>
  mul_nonneg (hB i o)
    (Finset.sum_nonneg fun j _ => mul_nonneg (hcur j) (hA j i))

lemma forwardVec_nonneg {K M : ℕ} (m : HMModel K M)
    (hA : ∀ i j, 0 ≤ m.transmat_ i j) (hB : ∀ i k, 0 ≤ m.emissionprob_ i k) :
    ∀ (l : List (Fin M)) (cur : Fin K → ℚ), (∀ i, 0 ≤ cur i) →
      ∀ i, 0 ≤ forwardVec m cur l i := by
  intro l
  induction l with
  | nil => intro cur hcur i; exact hcur i
  | cons o os ih =>
      intro cur hcur i
      exact ih _ (forwardStep_nonneg m hA hB cur hcur o) i

lemma backwardVec_nonneg {K M : ℕ} (m : HMModel K M)
    (hA : ∀ i j, 0 ≤ m.transmat_ i j) (hB : ∀ i k, 0 ≤ m.emissionprob_ i k) :
    ∀ (l : List (Fin M)) (i : Fin K), 0 ≤ backwardVec m l i := by
  intro l
  induction l with
  | nil => intro i; exact zero_le_one
  | cons o os ih =>
      intro i
      exact Finset.sum_nonneg fun j _ =>
        mul_nonneg (mul_nonneg (hA i j) (hB j o)) (ih j)

lemma forwardVec_linear {K M : ℕ} (m : HMModel K M) :
    ∀ (l : List (Fin M)) (c : Fin K → ℚ) (w : Fin K → Fin K → ℚ) (j : Fin K),
      forwardVec m (fun x => ∑ i, c i * w i x) l j =
        ∑ i, c i * forwardVec m (w i) l j := by
  intro l
  induction l with
  | nil => intro c w j; rfl
  | cons o os ih =>
      intro c w j
      have hstep : forwardStep m (fun x => ∑ i, c i * w i x) o =
          fun x => ∑ i, c i * forwardStep m (w i) o x := by
        funext y
        simp only [forwardStep, Finset.mul_sum, Finset.sum_mul]
        rw [Finset.sum_comm]
        exact Finset.sum_congr rfl fun z _ => Finset.sum_congr rfl fun i _ => by
          ring
      show forwardVec m (forwardStep m (fun x => ∑ i, c i * w i x) o) os j = _
      rw [hstep, ih]
      rfl

lemma sum_paths_weight_single {K M : ℕ} (m : HMModel K M) (t : ℕ) :
    ∀ (os : List (Fin M)) (o' : Fin M) (d : Fin K → ℚ) (φ : Fin K → ℚ)
      (ht : t < os.length + 1),
      (∑ r : Fin (os.length + 1) → Fin K,
          pathProbFrom m d (o' :: os) r * φ (r ⟨t, ht⟩)) =
        ∑ i, forwardVec m (fun i' => d i' * m.emissionprob_ i' o')
            (os.take t) i * backwardVec m (os.drop t) i * φ i := by
  induction t with
  | zero =>
      intro os o' d φ ht
      rw [sum_paths_succ (fun r : Fin (os.length + 1) → Fin K =>
        pathProbFrom m d (o' :: os) r * φ (r ⟨0, ht⟩))]
      refine Finset.sum_congr rfl fun i _ => ?_
      have hcons : ∀ q : Fin os.length → Fin K,
          pathProbFrom m d (o' :: os)
              (@Fin.cons os.length (fun _ => Fin K) i q) *
            φ ((@Fin.cons os.length (fun _ => Fin K) i q) ⟨0, ht⟩) =
          d i * m.emissionprob_ i o' *
            pathProbFrom m (m.transmat_ i) os q * φ i := fun q => rfl
      rw [Finset.sum_congr rfl fun q _ => hcons q]
      rw [← Finset.sum_mul, ← Finset.mul_sum, ← backwardVec_eq_sum_paths]
      rfl
  | succ t ih =>
      intro os o' d φ ht
      cases os with
      | nil => simp only [List.length_nil] at ht; omega
      | cons o'' os' =>
          simp only [List.length_cons] at ht ⊢
          rw [sum_paths_succ (fun r : Fin (os'.length + 1 + 1) → Fin K =>
            pathProbFrom m d (o' :: o'' :: os') r * φ (r ⟨t + 1, ht⟩))]
          have ht' : t < os'.length + 1 := Nat.lt_of_succ_lt_succ ht
          have hcons : ∀ (i : Fin K) (q : Fin (os'.length + 1) → Fin K),
              pathProbFrom m d (o' :: o'' :: os')
                  (@Fin.cons (os'.length + 1) (fun _ => Fin K) i q) *
                φ ((@Fin.cons (os'.length + 1) (fun _ => Fin K) i q) ⟨t + 1, ht⟩) =
              d i * m.emissionprob_ i o' *
                (pathProbFrom m (m.transmat_ i) (o'' :: os') q *
                  φ (q ⟨t, ht'⟩)) := fun i q => by
            show d i * m.emissionprob_ i o' *
                pathProbFrom m (m.transmat_ i) (o'' :: os') q * φ (q ⟨t, ht'⟩) = _
            ring
          calc ∑ i, ∑ q : Fin (os'.length + 1) → Fin K,
                pathProbFrom m d (o' :: o'' :: os')
                    (@Fin.cons (os'.length + 1) (fun _ => Fin K) i q) *
                  φ ((@Fin.cons (os'.length + 1) (fun _ => Fin K) i q) ⟨t + 1, ht⟩)
              = ∑ i, d i * m.emissionprob_ i o' *
                  ∑ q : Fin (os'.length + 1) → Fin K,
                    pathProbFrom m (m.transmat_ i) (o'' :: os') q *
                      φ (q ⟨t, ht'⟩) := by
                refine Finset.sum_congr rfl fun i _ => ?_
                rw [Finset.mul_sum]
                exact Finset.sum_congr rfl fun q _ => hcons i q
            _ = ∑ i, d i * m.emissionprob_ i o' *
                  ∑ j, forwardVec m
                      (fun j' => m.transmat_ i j' * m.emissionprob_ j' o'')
                      (os'.take t) j * backwardVec m (os'.drop t) j * φ j := by
                refine Finset.sum_congr rfl fun i _ => ?_
                rw [ih os' o'' (m.transmat_ i) φ ht']
            _ = ∑ i, ∑ j, (d i * m.emissionprob_ i o') *
                  (forwardVec m
                      (fun j' => m.transmat_ i j' * m.emissionprob_ j' o'')
                      (os'.take t) j * backwardVec m (os'.drop t) j * φ j) := by
                exact Finset.sum_congr rfl fun i _ => Finset.mul_sum _ _ _
            _ = ∑ j, ∑ i, (d i * m.emissionprob_ i o') *
                  (forwardVec m
                      (fun j' => m.transmat_ i j' * m.emissionprob_ j' o'')
                      (os'.take t) j * backwardVec m (os'.drop t) j * φ j) :=
                Finset.sum_comm
            _ = ∑ j, (∑ i, (d i * m.emissionprob_ i o') *
                    forwardVec m
                      (fun j' => m.transmat_ i j' * m.emissionprob_ j' o'')
                      (os'.take t) j) *
                  backwardVec m (os'.drop t) j * φ j := by
                refine Finset.sum_congr rfl fun j _ => ?_
                rw [Finset.sum_mul, Finset.sum_mul]
                refine Finset.sum_congr rfl fun i _ => by ring
            _ = ∑ j, forwardVec m
                  (fun i' => d i' * m.emissionprob_ i' o')
                  ((o'' :: os').take (t + 1)) j *
                  backwardVec m ((o'' :: os').drop (t + 1)) j * φ j := by
                refine Finset.sum_congr rfl fun j _ => ?_
                have hlin := forwardVec_linear m (os'.take t)
                  (fun i => d i * m.emissionprob_ i o')
                  (fun i j' => m.transmat_ i j' * m.emissionprob_ j' o'') j
                rw [← hlin]
                show forwardVec m _ (os'.take t) j * _ * _ =
                  forwardVec m (forwardStep m
                    (fun i' => d i' * m.emissionprob_ i' o') o'')
                    (os'.take t) j * _ * _
                have hfs : (fun x => ∑ i,
                    (fun i => d i * m.emissionprob_ i o') i *
                      (fun i j' => m.transmat_ i j' * m.emissionprob_ j' o'') i x) =
                    forwardStep m (fun i' => d i' * m.emissionprob_ i' o') o'' := by
                  funext x
                  simp only [forwardStep]
                  rw [Finset.mul_sum]
                  exact Finset.sum_congr rfl fun i _ => by ring
                rw [hfs]
                rfl

lemma sum_paths_weight_pair {K M : ℕ} (m : HMModel K M) (t : ℕ) :
    ∀ (os : List (Fin M)) (o' : Fin M) (d : Fin K → ℚ) (φ : Fin K → Fin K → ℚ)
      (ht : t < os.length),
      (∑ r : Fin (os.length + 1) → Fin K,
          pathProbFrom m d (o' :: os) r *
            φ (r ⟨t, by omega⟩) (r ⟨t + 1, by omega⟩)) =
        ∑ i, ∑ j,
          forwardVec m (fun i' => d i' * m.emissionprob_ i' o') (os.take t) i *
            m.transmat_ i j * m.emissionprob_ j (os.getD t o') *
            backwardVec m (os.drop (t + 1)) j * φ i j := by
  induction t with
  | zero =>
      intro os o' d φ ht
      cases os with
      | nil => simp only [List.length_nil] at ht; omega
      | cons o'' os' =>
          simp only [List.length_cons] at ht ⊢
          rw [sum_paths_succ (fun r : Fin (os'.length + 1 + 1) → Fin K =>
            pathProbFrom m d (o' :: o'' :: os') r *
              φ (r ⟨0, by omega⟩) (r ⟨1, by omega⟩))]
          have h0 : (0 : ℕ) < os'.length + 1 := Nat.succ_pos _
          calc ∑ i, ∑ q : Fin (os'.length + 1) → Fin K,
                pathProbFrom m d (o' :: o'' :: os')
                    (@Fin.cons (os'.length + 1) (fun _ => Fin K) i q) *
                  φ ((@Fin.cons (os'.length + 1) (fun _ => Fin K) i q) ⟨0, by omega⟩)
                    ((@Fin.cons (os'.length + 1) (fun _ => Fin K) i q) ⟨1, by omega⟩)
              = ∑ i, d i * m.emissionprob_ i o' *
                  ∑ q : Fin (os'.length + 1) → Fin K,
                    pathProbFrom m (m.transmat_ i) (o'' :: os') q *
                      (fun s => φ i s) (q ⟨0, h0⟩) := by
                refine Finset.sum_congr rfl fun i _ => ?_
                rw [Finset.mul_sum]
                refine Finset.sum_congr rfl fun q _ => ?_
                show pathProbFrom m d (o' :: o'' :: os')
                    (@Fin.cons (os'.length + 1) (fun _ => Fin K) i q) *
                  φ i (q ⟨0, h0⟩) = _
                show d i * m.emissionprob_ i o' *
                    pathProbFrom m (m.transmat_ i) (o'' :: os') q *
                      φ i (q ⟨0, h0⟩) = _
                ring
            _ = ∑ i, d i * m.emissionprob_ i o' *
                  ∑ j, forwardVec m
                      (fun j' => m.transmat_ i j' * m.emissionprob_ j' o'')
                      (os'.take 0) j * backwardVec m (os'.drop 0) j * φ i j := by
                refine Finset.sum_congr rfl fun i _ => ?_
                rw [sum_paths_weight_single m 0 os' o'' (m.transmat_ i)
                  (fun s => φ i s) h0]
            _ = ∑ i, ∑ j,
                  forwardVec m (fun i' => d i' * m.emissionprob_ i' o')
                      ((o'' :: os').take 0) i *
                    m.transmat_ i j * m.emissionprob_ j ((o'' :: os').getD 0 o') *
                    backwardVec m ((o'' :: os').drop 1) j * φ i j := by
                refine Finset.sum_congr rfl fun i _ => ?_
                rw [Finset.mul_sum]
                refine Finset.sum_congr rfl fun j _ => ?_
                show d i * m.emissionprob_ i o' *
                    ((fun j' => m.transmat_ i j' * m.emissionprob_ j' o'') j *
                      backwardVec m os' j * φ i j) = _
                show _ = (fun i' => d i' * m.emissionprob_ i' o') i *
                    m.transmat_ i j * m.emissionprob_ j o'' *
                    backwardVec m os' j * φ i j
                ring
  | succ t ih =>
      intro os o' d φ ht
      cases os with
      | nil => simp only [List.length_nil] at ht; omega
      | cons o'' os' =>
          simp only [List.length_cons] at ht ⊢
          have ht' : t < os'.length := Nat.lt_of_succ_lt_succ ht
          rw [sum_paths_succ (fun r : Fin (os'.length + 1 + 1) → Fin K =>
            pathProbFrom m d (o' :: o'' :: os') r *
              φ (r ⟨t + 1, by omega⟩) (r ⟨t + 2, by omega⟩))]
          calc ∑ i, ∑ q : Fin (os'.length + 1) → Fin K,
                pathProbFrom m d (o' :: o'' :: os')
                    (@Fin.cons (os'.length + 1) (fun _ => Fin K) i q) *
                  φ ((@Fin.cons (os'.length + 1) (fun _ => Fin K) i q) ⟨t + 1, by omega⟩)
                    ((@Fin.cons (os'.length + 1) (fun _ => Fin K) i q) ⟨t + 2, by omega⟩)
              = ∑ i, d i * m.emissionprob_ i o' *
                  ∑ q : Fin (os'.length + 1) → Fin K,
                    pathProbFrom m (m.transmat_ i) (o'' :: os') q *
                      φ (q ⟨t, by omega⟩) (q ⟨t + 1, by omega⟩) := by
                refine Finset.sum_congr rfl fun i _ => ?_
                rw [Finset.mul_sum]
                refine Finset.sum_congr rfl fun q _ => ?_
                show d i * m.emissionprob_ i o' *
                    pathProbFrom m (m.transmat_ i) (o'' :: os') q *
                      φ (q ⟨t, by omega⟩) (q ⟨t + 1, by omega⟩) = _
                ring
            _ = ∑ i, d i * m.emissionprob_ i o' *
                  ∑ i', ∑ j, forwardVec m
                      (fun j' => m.transmat_ i j' * m.emissionprob_ j' o'')
                      (os'.take t) i' *
                    m.transmat_ i' j * m.emissionprob_ j (os'.getD t o'') *
                    backwardVec m (os'.drop (t + 1)) j * φ i' j := by
                refine Finset.sum_congr rfl fun i _ => ?_
                rw [ih os' o'' (m.transmat_ i) φ ht']
            _ = ∑ i', ∑ j, (∑ i, (d i * m.emissionprob_ i o') *
                    forwardVec m
                      (fun j' => m.transmat_ i j' * m.emissionprob_ j' o'')
                      (os'.take t) i') *
                  m.transmat_ i' j * m.emissionprob_ j (os'.getD t o'') *
                  backwardVec m (os'.drop (t + 1)) j * φ i' j := by
                rw [show ∀ (F : Fin K → Fin K → Fin K → ℚ),
                    (∑ i, d i * m.emissionprob_ i o' * ∑ i', ∑ j, F i i' j) =
                    ∑ i', ∑ j, ∑ i, d i * m.emissionprob_ i o' * F i i' j from ?_]
                · refine Finset.sum_congr rfl fun i' _ => ?_
                  refine Finset.sum_congr rfl fun j _ => ?_
                  rw [Finset.sum_mul, Finset.sum_mul, Finset.sum_mul,
                    Finset.sum_mul]
                  refine Finset.sum_congr rfl fun i _ => by ring
                · intro F
                  calc (∑ i, d i * m.emissionprob_ i o' * ∑ i', ∑ j, F i i' j)
                      = ∑ i, ∑ i', ∑ j,
                          d i * m.emissionprob_ i o' * F i i' j := by
                        refine Finset.sum_congr rfl fun i _ => ?_
                        rw [Finset.mul_sum]
                        exact Finset.sum_congr rfl fun i' _ =>
                          Finset.mul_sum _ _ _
                    _ = ∑ i', ∑ i, ∑ j,
                          d i * m.emissionprob_ i o' * F i i' j :=
                        Finset.sum_comm
                    _ = ∑ i', ∑ j, ∑ i,
                          d i * m.emissionprob_ i o' * F i i' j :=
                        Finset.sum_congr rfl fun i' _ => Finset.sum_comm
            _ = ∑ i', ∑ j,
                  forwardVec m (fun i'' => d i'' * m.emissionprob_ i'' o')
                      ((o'' :: os').take (t + 1)) i' *
                    m.transmat_ i' j *
                    m.emissionprob_ j ((o'' :: os').getD (t + 1) o') *
                    backwardVec m ((o'' :: os').drop (t + 2)) j * φ i' j := by
                refine Finset.sum_congr rfl fun i' _ => ?_
                refine Finset.sum_congr rfl fun j _ => ?_
                have hlin := forwardVec_linear m (os'.take t)
                  (fun i => d i * m.emissionprob_ i o')
                  (fun i j' => m.transmat_ i j' * m.emissionprob_ j' o'') i'
                rw [← hlin]
                have hget : (o'' :: os').getD (t + 1) o' = os'.getD t o'' := by
                  rw [List.getD_eq_getElem _ _ (by simpa using ht),
                    List.getD_eq_getElem _ _ ht']
                  simp
                rw [hget]
                have hfs : (fun x => ∑ i,
                    (fun i => d i * m.emissionprob_ i o') i *
                      (fun i j' => m.transmat_ i j' * m.emissionprob_ j' o'') i x) =
                    forwardStep m (fun i' => d i' * m.emissionprob_ i' o') o'' := by
                  funext x
                  simp only [forwardStep]
                  rw [Finset.mul_sum]
                  exact Finset.sum_congr rfl fun i _ => by ring
                rw [hfs]
                rfl

lemma fiber_single {K M : ℕ} (m : HMModel K M) (o : Fin M)
    (rest : List (Fin M)) (t : ℕ) (ht : t < rest.length + 1) (i : Fin K) :
    (∑ p ∈ Finset.univ.filter
        (fun p : Fin (rest.length + 1) → Fin K => p ⟨t, ht⟩ = i),
      fullPathProb m (o :: rest) p) =
    alphaAt m o rest t i * betaAt m rest t i := by
  rw [Finset.sum_filter]
  have h1 : ∀ p : Fin (rest.length + 1) → Fin K,
      (if p ⟨t, ht⟩ = i then fullPathProb m (o :: rest) p else 0) =
      pathProbFrom m m.startprob_ (o :: rest) p *
        (fun s => if s = i then (1 : ℚ) else 0) (p ⟨t, ht⟩) := by
    intro p
    by_cases h : p ⟨t, ht⟩ = i <;> simp [h, fullPathProb]
  rw [Finset.sum_congr rfl fun p _ => h1 p]
  rw [sum_paths_weight_single m t rest o m.startprob_
    (fun s => if s = i then 1 else 0) ht]
  simp only [mul_ite, mul_one, mul_zero]
  rw [Finset.sum_ite_eq' Finset.univ i
    (fun i' => forwardVec m
      (fun i'' => m.startprob_ i'' * m.emissionprob_ i'' o) (rest.take t) i' *
        backwardVec m (rest.drop t) i')]
  simp only [Finset.mem_univ, if_true]
  rfl

lemma fiber_pair {K M : ℕ} (m : HMModel K M) (o : Fin M)
    (rest : List (Fin M)) (t : ℕ) (ht : t < rest.length) (i j : Fin K) :
    (∑ p ∈ Finset.univ.filter
        (fun p : Fin (rest.length + 1) → Fin K =>
          p ⟨t, by omega⟩ = i ∧ p ⟨t + 1, by omega⟩ = j),
      fullPathProb m (o :: rest) p) =
    alphaAt m o rest t i * m.transmat_ i j *
      m.emissionprob_ j (rest.getD t o) * betaAt m rest (t + 1) j := by
  rw [Finset.sum_filter]
  have h1 : ∀ p : Fin (rest.length + 1) → Fin K,
      (if p ⟨t, by omega⟩ = i ∧ p ⟨t + 1, by omega⟩ = j
        then fullPathProb m (o :: rest) p else 0) =
      pathProbFrom m m.startprob_ (o :: rest) p *
        (fun s s' => if s = i ∧ s' = j then (1 : ℚ) else 0)
          (p ⟨t, by omega⟩) (p ⟨t + 1, by omega⟩) := by
    intro p
    by_cases h : p ⟨t, by omega⟩ = i ∧ p ⟨t + 1, by omega⟩ = j <;>
      simp [h, fullPathProb]
  rw [Finset.sum_congr rfl fun p _ => h1 p]
  rw [sum_paths_weight_pair m t rest o m.startprob_
    (fun s s' => if s = i ∧ s' = j then 1 else 0) ht]
  simp only [mul_ite, mul_one, mul_zero, ite_and]
  have h2 : ∀ x : Fin K, (∑ x1 : Fin K,
      if x = i then
        if x1 = j then
          forwardVec m (fun i'' => m.startprob_ i'' * m.emissionprob_ i'' o)
              (rest.take t) x *
            m.transmat_ x x1 * m.emissionprob_ x1 (rest.getD t o) *
            backwardVec m (rest.drop (t + 1)) x1
        else 0
      else 0) =
      if x = i then
        forwardVec m (fun i'' => m.startprob_ i'' * m.emissionprob_ i'' o)
            (rest.take t) x *
          m.transmat_ x j * m.emissionprob_ j (rest.getD t o) *
          backwardVec m (rest.drop (t + 1)) j
      else 0 := by
    intro x
    by_cases hx : x = i
    · simp only [hx, if_true, eq_self_iff_true]
      rw [Finset.sum_ite_eq' Finset.univ j
        (fun x1 => forwardVec m
            (fun i'' => m.startprob_ i'' * m.emissionprob_ i'' o)
            (rest.take t) i *
          m.transmat_ i x1 * m.emissionprob_ x1 (rest.getD t o) *
          backwardVec m (rest.drop (t + 1)) x1)]
      simp
    · simp [hx]
  rw [Finset.sum_congr rfl fun x _ => h2 x]
  rw [Finset.sum_ite_eq' Finset.univ i
    (fun x => forwardVec m
        (fun i'' => m.startprob_ i'' * m.emissionprob_ i'' o)
        (rest.take t) x *
      m.transmat_ x j * m.emissionprob_ j (rest.getD t o) *
      backwardVec m (rest.drop (t + 1)) j)]
  simp only [Finset.mem_univ, if_true]
  rfl

lemma betaAt_step {K M : ℕ} (m : HMModel K M) (o : Fin M)
    (rest : List (Fin M)) (t : ℕ) (ht : t < rest.length) (i : Fin K) :
    betaAt m rest t i = ∑ j, m.transmat_ i j *
      m.emissionprob_ j (rest.getD t o) * betaAt m rest (t + 1) j := by
  unfold betaAt
  rw [List.getD_eq_getElem _ _ ht, List.drop_eq_getElem_cons ht]
  rfl

lemma sum_xiNum {K M : ℕ} (m : HMModel K M) (o : Fin M)
    (rest : List (Fin M)) (t : ℕ) (ht : t < rest.length) (i : Fin K) :
    (∑ j, alphaAt m o rest t i * m.transmat_ i j *
        m.emissionprob_ j (rest.getD t o) * betaAt m rest (t + 1) j) =
      alphaAt m o rest t i * betaAt m rest t i := by
  rw [betaAt_step m o rest t ht i, Finset.mul_sum]
  exact Finset.sum_congr rfl fun j _ => by ring

lemma gammaAt_eq {K M : ℕ} (m : HMModel K M) (o : Fin M)
    (rest : List (Fin M)) (t : ℕ) (i : Fin K) :
    gammaAt m o rest t i =
      alphaAt m o rest t i * betaAt m rest t i / likelihood m (o :: rest) := by
  unfold gammaAt
  rw [sum_alphaAt_betaAt]

lemma xiAt_eq {K M : ℕ} (m : HMModel K M) (o : Fin M)
    (rest : List (Fin M)) (t : ℕ) (ht : t < rest.length) (i j : Fin K) :
    xiAt m o rest t i j =
      alphaAt m o rest t i * m.transmat_ i j *
        m.emissionprob_ j (rest.getD t o) * betaAt m rest (t + 1) j /
        likelihood m (o :: rest) := by
  unfold xiAt
  rw [Finset.sum_congr rfl fun i' _ => sum_xiNum m o rest t ht i',
    sum_alphaAt_betaAt]

lemma alphaAt_nonneg {K M : ℕ} (m : HMModel K M)
    (hpi : ∀ i, 0 ≤ m.startprob_ i) (hA : ∀ i j, 0 ≤ m.transmat_ i j)
    (hB : ∀ i k, 0 ≤ m.emissionprob_ i k) (o : Fin M) (rest : List (Fin M))
    (t : ℕ) (i : Fin K) : 0 ≤ alphaAt m o rest t i :=
  forwardVec_nonneg m hA hB (rest.take t) (forwardInit m o)
    (fun i' => mul_nonneg (hpi i') (hB i' o)) i

lemma betaAt_nonneg {K M : ℕ} (m : HMModel K M)
    (hA : ∀ i j, 0 ≤ m.transmat_ i j) (hB : ∀ i k, 0 ≤ m.emissionprob_ i k)
    (rest : List (Fin M)) (t : ℕ) (i : Fin K) : 0 ≤ betaAt m rest t i :=
  backwardVec_nonneg m hA hB (rest.drop t) i

lemma likelihood_nonneg {K M : ℕ} (m : HMModel K M)
    (hpi : ∀ i, 0 ≤ m.startprob_ i) (hA : ∀ i j, 0 ≤ m.transmat_ i j)
    (hB : ∀ i k, 0 ≤ m.emissionprob_ i k) (obs : List (Fin M)) :
    0 ≤ likelihood m obs := by
  cases obs with
  | nil => exact zero_le_one
  | cons o rest =>
      exact Finset.sum_nonneg fun i _ => forwardVec_nonneg m hA hB rest
        (forwardInit m o) (fun i' => mul_nonneg (hpi i') (hB i' o)) i

lemma gammaAt_nonneg {K M : ℕ} (m : HMModel K M)
    (hpi : ∀ i, 0 ≤ m.startprob_ i) (hA : ∀ i j, 0 ≤ m.transmat_ i j)
    (hB : ∀ i k, 0 ≤ m.emissionprob_ i k) (o : Fin M) (rest : List (Fin M))
    (t : ℕ) (i : Fin K) : 0 ≤ gammaAt m o rest t i := by
  unfold gammaAt
  refine div_nonneg
    (mul_nonneg (alphaAt_nonneg m hpi hA hB o rest t i)
      (betaAt_nonneg m hA hB rest t i)) ?_
  exact Finset.sum_nonneg fun i' _ =>
    mul_nonneg (alphaAt_nonneg m hpi hA hB o rest t i')
      (betaAt_nonneg m hA hB rest t i')

lemma xiAt_nonneg {K M : ℕ} (m : HMModel K M)
    (hpi : ∀ i, 0 ≤ m.startprob_ i) (hA : ∀ i j, 0 ≤ m.transmat_ i j)
    (hB : ∀ i k, 0 ≤ m.emissionprob_ i k) (o : Fin M) (rest : List (Fin M))
    (t : ℕ) (i j : Fin K) : 0 ≤ xiAt m o rest t i j := by
  unfold xiAt
  refine div_nonneg ?_ ?_
  · exact mul_nonneg (mul_nonneg (mul_nonneg
      (alphaAt_nonneg m hpi hA hB o rest t i) (hA i j)) (hB j _))
      (betaAt_nonneg m hA hB rest (t + 1) j)
  · exact Finset.sum_nonneg fun i' _ => Finset.sum_nonneg fun j' _ =>
      mul_nonneg (mul_nonneg (mul_nonneg
        (alphaAt_nonneg m hpi hA hB o rest t i') (hA i' j')) (hB j' _))
        (betaAt_nonneg m hA hB rest (t + 1) j')

lemma sum_gammaAt_eq_one {K M : ℕ} (m : HMModel K M) (o : Fin M)
    (rest : List (Fin M)) (t : ℕ) (hL : likelihood m (o :: rest) ≠ 0) :
    (∑ i, gammaAt m o rest t i) = 1 := by
  have h : ∀ i, gammaAt m o rest t i =
      alphaAt m o rest t i * betaAt m rest t i / likelihood m (o :: rest) :=
    fun i => gammaAt_eq m o rest t i
  rw [Finset.sum_congr rfl fun i _ => h i, ← Finset.sum_div,
    sum_alphaAt_betaAt, div_self hL]

lemma sum_xiAt_eq_gammaAt {K M : ℕ} (m : HMModel K M) (o : Fin M)
    (rest : List (Fin M)) (t : ℕ) (ht : t < rest.length) (i : Fin K) :
    (∑ j, xiAt m o rest t i j) = gammaAt m o rest t i := by
  rw [Finset.sum_congr rfl fun j _ => xiAt_eq m o rest t ht i j,
    ← Finset.sum_div, sum_xiNum m o rest t ht i, gammaAt_eq]

lemma bwStep_valid {K M : ℕ} (m : HMModel K M) (hm : IsValid m)
    (obs : List (Fin M)) : IsValid (bwStep m obs) := by
  obtain ⟨hpi, hpisum, hA, hAsum, hB, hBsum⟩ := hm
  cases obs with
  | nil => exact ⟨hpi, hpisum, hA, hAsum, hB, hBsum⟩
  | cons o rest =>
      simp only [bwStep]
      refine ⟨?_, ?_, ?_, ?_, ?_, ?_⟩
      · intro i
        dsimp only
        split
        · exact hpi i
        · exact gammaAt_nonneg m hpi hA hB o rest 0 i
      · dsimp only
        by_cases hz : (∑ i', alphaAt m o rest 0 i' * betaAt m rest 0 i') = 0
        · rw [Finset.sum_congr rfl fun i _ => if_pos hz]
          exact hpisum
        · rw [Finset.sum_congr rfl fun i _ => if_neg hz]
          have hL : likelihood m (o :: rest) ≠ 0 := by
            rw [← sum_alphaAt_betaAt m o rest 0]
            exact hz
          exact sum_gammaAt_eq_one m o rest 0 hL
      · intro i j
        dsimp only
        split
        · exact hA i j
        · refine div_nonneg ?_ ?_
          · exact Finset.sum_nonneg fun t _ =>
              xiAt_nonneg m hpi hA hB o rest t i j
          · exact Finset.sum_nonneg fun t _ =>
              gammaAt_nonneg m hpi hA hB o rest t i
      · intro i
        dsimp only
        by_cases hz : (∑ t ∈ Finset.range rest.length, gammaAt m o rest t i) = 0
        · rw [Finset.sum_congr rfl fun j _ => if_pos hz]
          exact hAsum i
        · rw [Finset.sum_congr rfl fun j _ => if_neg hz]
          rw [← Finset.sum_div]
          rw [show (∑ j, ∑ t ∈ Finset.range rest.length, xiAt m o rest t i j) =
              ∑ t ∈ Finset.range rest.length, gammaAt m o rest t i from ?_]
          · exact div_self hz
          · rw [Finset.sum_comm]
            exact Finset.sum_congr rfl fun t htt =>
              sum_xiAt_eq_gammaAt m o rest t (Finset.mem_range.1 htt) i
      · intro i k
        dsimp only
        split
        · exact hB i k
        · refine div_nonneg ?_ ?_
          · exact Finset.sum_nonneg fun t _ =>
              gammaAt_nonneg m hpi hA hB o rest t i
          · exact Finset.sum_nonneg fun t _ =>
              gammaAt_nonneg m hpi hA hB o rest t i
      · intro i
        dsimp only
        by_cases hz : (∑ t ∈ Finset.range (rest.length + 1),
            gammaAt m o rest t i) = 0
        · rw [Finset.sum_congr rfl fun k _ => if_pos hz]
          exact hBsum i
        · rw [Finset.sum_congr rfl fun k _ => if_neg hz]
          rw [← Finset.sum_div]
          rw [Finset.sum_fiberwise (Finset.range (rest.length + 1))
            (fun t => (o :: rest).getD t o) (fun t => gammaAt m o rest t i)]
          exact div_self hz

lemma pext_tail {K n : ℕ} (p : Fin (n + 1 + 1) → Fin K) (t : ℕ) :
    pext (fun s : Fin (n + 1) => p ⟨s.1 + 1, Nat.succ_lt_succ s.2⟩) t =
      pext p (t + 1) := by
  unfold pext
  exact congrArg p (Fin.ext (by simp [Nat.succ_min_succ]))

lemma pext_eq {K n : ℕ} (p : Fin (n + 1) → Fin K) (t : ℕ) (ht : t < n + 1) :
    pext p t = p ⟨t, ht⟩ :=
  congrArg p (Fin.ext (by simp [Nat.min_eq_left (Nat.lt_succ_iff.1 ht)]))

lemma pathProbFrom_eq_prod {K M : ℕ} (m2 : HMModel K M) :
    ∀ (os : List (Fin M)) (o' : Fin M) (d : Fin K → ℚ)
      (p : Fin (os.length + 1) → Fin K),
      pathProbFrom m2 d (o' :: os) p =
        d (pext p 0) *
          (∏ t ∈ Finset.range os.length,
            m2.transmat_ (pext p t) (pext p (t + 1))) *
          ∏ t ∈ Finset.range (os.length + 1),
            m2.emissionprob_ (pext p t) ((o' :: os).getD t o') := by
  intro os
  induction os with
  | nil =>
      intro o' d p
      show d (p ⟨0, Nat.succ_pos 0⟩) *
          m2.emissionprob_ (p ⟨0, Nat.succ_pos 0⟩) o' * 1 = _
      simp only [List.length_nil]
      rw [Finset.range_zero, Finset.prod_empty, Finset.prod_range_one]
      show _ = d (p ⟨0, Nat.succ_pos 0⟩) * 1 *
        m2.emissionprob_ (p ⟨0, Nat.succ_pos 0⟩) ([o'].getD 0 o')
      show _ = d (p ⟨0, Nat.succ_pos 0⟩) * 1 *
        m2.emissionprob_ (p ⟨0, Nat.succ_pos 0⟩) o'
      ring
  | cons o'' os' ih =>
      intro o' d p
      have hih := ih o''
        (m2.transmat_ (p ⟨0, Nat.succ_pos (o'' :: os').length⟩))
        (fun s : Fin (os'.length + 1) => p ⟨s.1 + 1, Nat.succ_lt_succ s.2⟩)
      refine Eq.trans (congrArg
        (fun z => d (p ⟨0, Nat.succ_pos (o'' :: os').length⟩) *
          m2.emissionprob_ (p ⟨0, Nat.succ_pos (o'' :: os').length⟩) o' * z)
        hih) ?_
      simp only [List.length_cons]
      have hq : ∀ t, pext (fun s : Fin (os'.length + 1) =>
          p ⟨s.1 + 1, Nat.succ_lt_succ s.2⟩) t = pext p (t + 1) :=
        pext_tail p
      have hA2 : (∏ t ∈ Finset.range os'.length,
          m2.transmat_
            (pext (fun s : Fin (os'.length + 1) =>
              p ⟨s.1 + 1, Nat.succ_lt_succ s.2⟩) t)
            (pext (fun s : Fin (os'.length + 1) =>
              p ⟨s.1 + 1, Nat.succ_lt_succ s.2⟩) (t + 1))) =
          ∏ t ∈ Finset.range os'.length,
            m2.transmat_ (pext p (t + 1)) (pext p (t + 1 + 1)) :=
        Finset.prod_congr rfl fun t _ => by rw [hq t, hq (t + 1)]
      have hB2 : (∏ t ∈ Finset.range (os'.length + 1),
          m2.emissionprob_
            (pext (fun s : Fin (os'.length + 1) =>
              p ⟨s.1 + 1, Nat.succ_lt_succ s.2⟩) t)
            ((o'' :: os').getD t o'')) =
          ∏ t ∈ Finset.range (os'.length + 1),
            m2.emissionprob_ (pext p (t + 1)) ((o'' :: os').getD t o'') :=
        Finset.prod_congr rfl fun t _ => by rw [hq t]
      rw [hA2, hB2, hq 0]
      have hrA : (∏ t ∈ Finset.range (os'.length + 1),
          m2.transmat_ (pext p t) (pext p (t + 1))) =
          (∏ t ∈ Finset.range os'.length,
            m2.transmat_ (pext p (t + 1)) (pext p (t + 1 + 1))) *
            m2.transmat_ (pext p 0) (pext p 1) :=
        Finset.prod_range_succ' _ _
      have hrB : (∏ t ∈ Finset.range (os'.length + 1 + 1),
          m2.emissionprob_ (pext p t) ((o' :: o'' :: os').getD t o')) =
          (∏ t ∈ Finset.range (os'.length + 1),
            m2.emissionprob_ (pext p (t + 1))
              ((o' :: o'' :: os').getD (t + 1) o')) *
            m2.emissionprob_ (pext p 0) ((o' :: o'' :: os').getD 0 o') :=
        Finset.prod_range_succ' _ _
      rw [hrA, hrB]
      have hB4 : (∏ t ∈ Finset.range (os'.length + 1),
          m2.emissionprob_ (pext p (t + 1))
            ((o' :: o'' :: os').getD (t + 1) o')) =
          ∏ t ∈ Finset.range (os'.length + 1),
            m2.emissionprob_ (pext p (t + 1)) ((o'' :: os').getD t o'') := by
        refine Finset.prod_congr rfl fun t htm => ?_
        have htl : t < os'.length + 1 := Finset.mem_range.1 htm
        rw [List.getD_eq_getElem _ _ (by simpa using Nat.succ_lt_succ htl),
          List.getD_eq_getElem _ _ (by simpa using htl)]
        simp
      rw [hB4]
      have h0 : p ⟨0, Nat.succ_pos (o'' :: os').length⟩ = pext p 0 :=
        (pext_eq p 0 (Nat.succ_pos _)).symm
      rw [h0]
      simp only [List.getD_cons_zero]
      ring

lemma dec_term_pi {K M : ℕ} (m m2 : HMModel K M) (o : Fin M)
    (rest : List (Fin M)) :
    (∑ p : Fin (rest.length + 1) → Fin K,
      (fullPathProb m (o :: rest) p : ℝ) *
        Real.log ((m2.startprob_ (pext p 0) : ℚ) : ℝ)) =
    ∑ i, ((alphaAt m o rest 0 i * betaAt m rest 0 i : ℚ) : ℝ) *
      Real.log ((m2.startprob_ i : ℚ) : ℝ) := by
  rw [← Finset.sum_fiberwise Finset.univ
    (fun p : Fin (rest.length + 1) → Fin K => pext p 0)
    (fun p => (fullPathProb m (o :: rest) p : ℝ) *
      Real.log ((m2.startprob_ (pext p 0) : ℚ) : ℝ))]
  refine Finset.sum_congr rfl fun i _ => ?_
  have h1 : (∑ p ∈ Finset.univ.filter
      (fun p : Fin (rest.length + 1) → Fin K => pext p 0 = i),
      (fullPathProb m (o :: rest) p : ℝ) *
        Real.log ((m2.startprob_ (pext p 0) : ℚ) : ℝ)) =
      ∑ p ∈ Finset.univ.filter
        (fun p : Fin (rest.length + 1) → Fin K => pext p 0 = i),
        (fullPathProb m (o :: rest) p : ℝ) *
          Real.log ((m2.startprob_ i : ℚ) : ℝ) :=
    Finset.sum_congr rfl fun p hp => by rw [(Finset.mem_filter.1 hp).2]
  have h2 : Finset.univ.filter
      (fun p : Fin (rest.length + 1) → Fin K => pext p 0 = i) =
      Finset.univ.filter (fun p : Fin (rest.length + 1) → Fin K =>
        p ⟨0, Nat.succ_pos rest.length⟩ = i) :=
    Finset.filter_congr fun p _ => by
      rw [pext_eq p 0 (Nat.succ_pos rest.length)]
  rw [h1, ← Finset.sum_mul, ← Rat.cast_sum, h2,
    fiber_single m o rest 0 (Nat.succ_pos rest.length) i]

lemma dec_term_A {K M : ℕ} (m m2 : HMModel K M) (o : Fin M)
    (rest : List (Fin M)) :
    (∑ p : Fin (rest.length + 1) → Fin K,
      (fullPathProb m (o :: rest) p : ℝ) *
        ∑ t ∈ Finset.range rest.length,
          Real.log ((m2.transmat_ (pext p t) (pext p (t + 1)) : ℚ) : ℝ)) =
    ∑ i, ∑ j, ((∑ t ∈ Finset.range rest.length,
        alphaAt m o rest t i * m.transmat_ i j *
          m.emissionprob_ j (rest.getD t o) * betaAt m rest (t + 1) j : ℚ) : ℝ) *
      Real.log ((m2.transmat_ i j : ℚ) : ℝ) := by
  rw [Finset.sum_congr rfl fun p _ => Finset.mul_sum (Finset.range rest.length)
    (fun t => Real.log ((m2.transmat_ (pext p t) (pext p (t + 1)) : ℚ) : ℝ))
    ((fullPathProb m (o :: rest) p : ℝ))]
  rw [Finset.sum_comm]
  have hper : ∀ t ∈ Finset.range rest.length,
      (∑ p : Fin (rest.length + 1) → Fin K,
        (fullPathProb m (o :: rest) p : ℝ) *
          Real.log ((m2.transmat_ (pext p t) (pext p (t + 1)) : ℚ) : ℝ)) =
      ∑ i, ∑ j, ((alphaAt m o rest t i * m.transmat_ i j *
          m.emissionprob_ j (rest.getD t o) * betaAt m rest (t + 1) j : ℚ) : ℝ) *
        Real.log ((m2.transmat_ i j : ℚ) : ℝ) := by
    intro t htm
    have ht : t < rest.length := Finset.mem_range.1 htm
    rw [← Finset.sum_fiberwise Finset.univ
      (fun p : Fin (rest.length + 1) → Fin K => (pext p t, pext p (t + 1)))
      (fun p => (fullPathProb m (o :: rest) p : ℝ) *
        Real.log ((m2.transmat_ (pext p t) (pext p (t + 1)) : ℚ) : ℝ))]
    rw [Fintype.sum_prod_type]
    refine Finset.sum_congr rfl fun i _ => Finset.sum_congr rfl fun j _ => ?_
    have h1 : (∑ p ∈ Finset.univ.filter
        (fun p : Fin (rest.length + 1) → Fin K =>
          (pext p t, pext p (t + 1)) = (i, j)),
        (fullPathProb m (o :: rest) p : ℝ) *
          Real.log ((m2.transmat_ (pext p t) (pext p (t + 1)) : ℚ) : ℝ)) =
        ∑ p ∈ Finset.univ.filter
          (fun p : Fin (rest.length + 1) → Fin K =>
            (pext p t, pext p (t + 1)) = (i, j)),
          (fullPathProb m (o :: rest) p : ℝ) *
            Real.log ((m2.transmat_ i j : ℚ) : ℝ) := by
      refine Finset.sum_congr rfl fun p hp => ?_
      have h2 := (Finset.mem_filter.1 hp).2
      rw [Prod.mk.injEq] at h2
      rw [h2.1, h2.2]
    have h3 : Finset.univ.filter
        (fun p : Fin (rest.length + 1) → Fin K =>
          (pext p t, pext p (t + 1)) = (i, j)) =
        Finset.univ.filter (fun p : Fin (rest.length + 1) → Fin K =>
          p ⟨t, by omega⟩ = i ∧ p ⟨t + 1, by omega⟩ = j) :=
      Finset.filter_congr fun p _ => by
        rw [pext_eq p t (by omega), pext_eq p (t + 1) (by omega),
          Prod.mk.injEq]
    rw [h1, ← Finset.sum_mul, ← Rat.cast_sum, h3,
      fiber_pair m o rest t ht i j]
  rw [Finset.sum_congr rfl hper, Finset.sum_comm]
  refine Finset.sum_congr rfl fun i _ => ?_
  rw [Finset.sum_comm]
  refine Finset.sum_congr rfl fun j _ => ?_
  rw [← Finset.sum_mul, ← Rat.cast_sum]

lemma dec_term_B {K M : ℕ} (m m2 : HMModel K M) (o : Fin M)
    (rest : List (Fin M)) :
    (∑ p : Fin (rest.length + 1) → Fin K,
      (fullPathProb m (o :: rest) p : ℝ) *
        ∑ t ∈ Finset.range (rest.length + 1),
          Real.log ((m2.emissionprob_ (pext p t) ((o :: rest).getD t o) : ℚ) : ℝ)) =
    ∑ i, ∑ k, ((∑ t ∈ (Finset.range (rest.length + 1)).filter
          (fun t => (o :: rest).getD t o = k),
        alphaAt m o rest t i * betaAt m rest t i : ℚ) : ℝ) *
      Real.log ((m2.emissionprob_ i k : ℚ) : ℝ) := by
  rw [Finset.sum_congr rfl fun p _ =>
    Finset.mul_sum (Finset.range (rest.length + 1))
      (fun t => Real.log
        ((m2.emissionprob_ (pext p t) ((o :: rest).getD t o) : ℚ) : ℝ))
      ((fullPathProb m (o :: rest) p : ℝ))]
  rw [Finset.sum_comm]
  have hper : ∀ t ∈ Finset.range (rest.length + 1),
      (∑ p : Fin (rest.length + 1) → Fin K,
        (fullPathProb m (o :: rest) p : ℝ) *
          Real.log ((m2.emissionprob_ (pext p t) ((o :: rest).getD t o) : ℚ) : ℝ)) =
      ∑ i, ((alphaAt m o rest t i * betaAt m rest t i : ℚ) : ℝ) *
        Real.log ((m2.emissionprob_ i ((o :: rest).getD t o) : ℚ) : ℝ) := by
    intro t htm
    have ht : t < rest.length + 1 := Finset.mem_range.1 htm
    rw [← Finset.sum_fiberwise Finset.univ
      (fun p : Fin (rest.length + 1) → Fin K => pext p t)
      (fun p => (fullPathProb m (o :: rest) p : ℝ) *
        Real.log ((m2.emissionprob_ (pext p t) ((o :: rest).getD t o) : ℚ) : ℝ))]
    refine Finset.sum_congr rfl fun i _ => ?_
    have h1 : (∑ p ∈ Finset.univ.filter
        (fun p : Fin (rest.length + 1) → Fin K => pext p t = i),
        (fullPathProb m (o :: rest) p : ℝ) *
          Real.log ((m2.emissionprob_ (pext p t) ((o :: rest).getD t o) : ℚ) : ℝ)) =
        ∑ p ∈ Finset.univ.filter
          (fun p : Fin (rest.length + 1) → Fin K => pext p t = i),
          (fullPathProb m (o :: rest) p : ℝ) *
            Real.log ((m2.emissionprob_ i ((o :: rest).getD t o) : ℚ) : ℝ) :=
      Finset.sum_congr rfl fun p hp => by rw [(Finset.mem_filter.1 hp).2]
    have h2 : Finset.univ.filter
        (fun p : Fin (rest.length + 1) → Fin K => pext p t = i) =
        Finset.univ.filter (fun p : Fin (rest.length + 1) → Fin K =>
          p ⟨t, ht⟩ = i) :=
      Finset.filter_congr fun p _ => by rw [pext_eq p t ht]
    rw [h1, ← Finset.sum_mul, ← Rat.cast_sum, h2,
      fiber_single m o rest t ht i]
  rw [Finset.sum_congr rfl hper, Finset.sum_comm]
  refine Finset.sum_congr rfl fun i _ => ?_
  rw [← Finset.sum_fiberwise (Finset.range (rest.length + 1))
    (fun t => (o :: rest).getD t o)
    (fun t => ((alphaAt m o rest t i * betaAt m rest t i : ℚ) : ℝ) *
      Real.log ((m2.emissionprob_ i ((o :: rest).getD t o) : ℚ) : ℝ))]
  refine Finset.sum_congr rfl fun k _ => ?_
  have h1 : (∑ t ∈ (Finset.range (rest.length + 1)).filter
      (fun t => (o :: rest).getD t o = k),
      ((alphaAt m o rest t i * betaAt m rest t i : ℚ) : ℝ) *
        Real.log ((m2.emissionprob_ i ((o :: rest).getD t o) : ℚ) : ℝ)) =
      ∑ t ∈ (Finset.range (rest.length + 1)).filter
        (fun t => (o :: rest).getD t o = k),
        ((alphaAt m o rest t i * betaAt m rest t i : ℚ) : ℝ) *
          Real.log ((m2.emissionprob_ i k : ℚ) : ℝ) :=
    Finset.sum_congr rfl fun t htm => by rw [(Finset.mem_filter.1 htm).2]
  rw [h1, ← Finset.sum_mul, ← Rat.cast_sum]

lemma log_fullPathProb {K M : ℕ} (m2 : HMModel K M) (o : Fin M)
    (rest : List (Fin M)) (p : Fin (rest.length + 1) → Fin K)
    (h : fullPathProb m2 (o :: rest) p ≠ 0) :
    Real.log ((fullPathProb m2 (o :: rest) p : ℚ) : ℝ) =
      Real.log ((m2.startprob_ (pext p 0) : ℚ) : ℝ) +
      (∑ t ∈ Finset.range rest.length,
        Real.log ((m2.transmat_ (pext p t) (pext p (t + 1)) : ℚ) : ℝ)) +
      ∑ t ∈ Finset.range (rest.length + 1),
        Real.log ((m2.emissionprob_ (pext p t) ((o :: rest).getD t o) : ℚ) : ℝ) := by
  have hfull : fullPathProb m2 (o :: rest) p = m2.startprob_ (pext p 0) *
      (∏ t ∈ Finset.range rest.length,
        m2.transmat_ (pext p t) (pext p (t + 1))) *
      ∏ t ∈ Finset.range (rest.length + 1),
        m2.emissionprob_ (pext p t) ((o :: rest).getD t o) :=
    pathProbFrom_eq_prod m2 rest o m2.startprob_ p
  rw [hfull] at h ⊢
  obtain ⟨h12, h3⟩ := mul_ne_zero_iff.1 h
  obtain ⟨h1, h2⟩ := mul_ne_zero_iff.1 h12
  have h1' : ((m2.startprob_ (pext p 0) : ℚ) : ℝ) ≠ 0 := by exact_mod_cast h1
  have h2' : ((∏ t ∈ Finset.range rest.length,
      m2.transmat_ (pext p t) (pext p (t + 1)) : ℚ) : ℝ) ≠ 0 := by
    exact_mod_cast h2
  have h3' : ((∏ t ∈ Finset.range (rest.length + 1),
      m2.emissionprob_ (pext p t) ((o :: rest).getD t o) : ℚ) : ℝ) ≠ 0 := by
    exact_mod_cast h3
  rw [show (((m2.startprob_ (pext p 0) *
      (∏ t ∈ Finset.range rest.length,
        m2.transmat_ (pext p t) (pext p (t + 1))) *
      ∏ t ∈ Finset.range (rest.length + 1),
        m2.emissionprob_ (pext p t) ((o :: rest).getD t o) : ℚ)) : ℝ) =
      ((m2.startprob_ (pext p 0) : ℚ) : ℝ) *
      ((∏ t ∈ Finset.range rest.length,
        m2.transmat_ (pext p t) (pext p (t + 1)) : ℚ) : ℝ) *
      ((∏ t ∈ Finset.range (rest.length + 1),
        m2.emissionprob_ (pext p t) ((o :: rest).getD t o) : ℚ) : ℝ) by
    push_cast; ring]
  rw [Real.log_mul (mul_ne_zero h1' h2') h3', Real.log_mul h1' h2']
  rw [Rat.cast_prod, Rat.cast_prod]
  rw [Real.log_prod _ _ fun t htm => by
    exact_mod_cast Finset.prod_ne_zero_iff.1 h2 t htm]
  rw [Real.log_prod _ _ fun t htm => by
    exact_mod_cast Finset.prod_ne_zero_iff.1 h3 t htm]

lemma sum_weight_log {K M : ℕ} (m m2 : HMModel K M) (o : Fin M)
    (rest : List (Fin M))
    (hs : ∀ p : Fin (rest.length + 1) → Fin K,
      fullPathProb m (o :: rest) p ≠ 0 → fullPathProb m2 (o :: rest) p ≠ 0) :
    (∑ p : Fin (rest.length + 1) → Fin K,
      (fullPathProb m (o :: rest) p : ℝ) *
        Real.log ((fullPathProb m2 (o :: rest) p : ℚ) : ℝ)) =
    (∑ i, ((alphaAt m o rest 0 i * betaAt m rest 0 i : ℚ) : ℝ) *
      Real.log ((m2.startprob_ i : ℚ) : ℝ)) +
    (∑ i, ∑ j, ((∑ t ∈ Finset.range rest.length,
        alphaAt m o rest t i * m.transmat_ i j *
          m.emissionprob_ j (rest.getD t o) * betaAt m rest (t + 1) j : ℚ) : ℝ) *
      Real.log ((m2.transmat_ i j : ℚ) : ℝ)) +
    ∑ i, ∑ k, ((∑ t ∈ (Finset.range (rest.length + 1)).filter
          (fun t => (o :: rest).getD t o = k),
        alphaAt m o rest t i * betaAt m rest t i : ℚ) : ℝ) *
      Real.log ((m2.emissionprob_ i k : ℚ) : ℝ) := by
  have hpw : ∀ p : Fin (rest.length + 1) → Fin K,
      (fullPathProb m (o :: rest) p : ℝ) *
        Real.log ((fullPathProb m2 (o :: rest) p : ℚ) : ℝ) =
      (fullPathProb m (o :: rest) p : ℝ) *
          Real.log ((m2.startprob_ (pext p 0) : ℚ) : ℝ) +
      ((fullPathProb m (o :: rest) p : ℝ) *
        ∑ t ∈ Finset.range rest.length,
          Real.log ((m2.transmat_ (pext p t) (pext p (t + 1)) : ℚ) : ℝ)) +
      (fullPathProb m (o :: rest) p : ℝ) *
        ∑ t ∈ Finset.range (rest.length + 1),
          Real.log ((m2.emissionprob_ (pext p t) ((o :: rest).getD t o) : ℚ) : ℝ) := by
    intro p
    by_cases hf : fullPathProb m (o :: rest) p = 0
    · rw [hf]
      push_cast
      ring
    · rw [log_fullPathProb m2 o rest p (hs p hf)]
      ring
  rw [Finset.sum_congr rfl fun p _ => hpw p]
  rw [Finset.sum_add_distrib, Finset.sum_add_distrib]
  rw [dec_term_pi m m2 o rest, dec_term_A m m2 o rest, dec_term_B m m2 o rest]

lemma gibbs_block {ι : Type*} [Fintype ι] (c q : ι → ℚ)
    (hc : ∀ i, 0 ≤ c i) (hq : ∀ i, 0 ≤ q i) (hqs : (∑ i, q i) = 1)
    (hcq : ∀ i, c i ≠ 0 → q i ≠ 0) (hC : (∑ i, c i) ≠ 0) :
    (∑ i, (c i : ℝ) * Real.log ((q i : ℚ) : ℝ)) ≤
      ∑ i, (c i : ℝ) * Real.log ((c i / (∑ i', c i') : ℚ) : ℝ) := by
  classical
  have hCpos : (0 : ℚ) < ∑ i', c i' :=
    lt_of_le_of_ne (Finset.sum_nonneg fun i _ => hc i) (Ne.symm hC)
  have hrestrict : ∀ g : ι → ℝ,
      (∑ i, (c i : ℝ) * g i) =
        ∑ i ∈ Finset.univ.filter (fun i => c i ≠ 0), (c i : ℝ) * g i := by
    intro g
    refine (Finset.sum_filter_of_ne fun i _ h => ?_).symm
    intro hci
    exact h (by rw [hci]; push_cast; ring)
  rw [hrestrict (fun i => Real.log ((q i : ℚ) : ℝ)),
    hrestrict (fun i => Real.log ((c i / (∑ i', c i') : ℚ) : ℝ))]
  have hkey : ∀ i ∈ Finset.univ.filter (fun i => c i ≠ 0),
      (c i : ℝ) * Real.log ((q i : ℚ) : ℝ) -
        (c i : ℝ) * Real.log ((c i / (∑ i', c i') : ℚ) : ℝ) ≤
      ((∑ i', c i') : ℝ) * (q i : ℝ) - (c i : ℝ) := by
    intro i him
    have hci : c i ≠ 0 := (Finset.mem_filter.1 him).2
    have hcipos : (0 : ℝ) < (c i : ℝ) := by
      exact_mod_cast lt_of_le_of_ne (hc i) (Ne.symm hci)
    have hqipos : (0 : ℝ) < (q i : ℝ) := by
      exact_mod_cast lt_of_le_of_ne (hq i) (Ne.symm (hcq i hci))
    have hCpos' : (0 : ℝ) < ((∑ i', c i') : ℝ) := by exact_mod_cast hCpos
    have hlog : Real.log ((q i : ℚ) : ℝ) -
        Real.log ((c i / (∑ i', c i') : ℚ) : ℝ) =
        Real.log ((q i : ℝ) * ((∑ i', c i') : ℝ) / (c i : ℝ)) := by
      rw [show ((c i / (∑ i', c i') : ℚ) : ℝ) =
          (c i : ℝ) / ((∑ i', c i') : ℝ) by push_cast; ring]
      rw [Real.log_div (ne_of_gt hcipos) (ne_of_gt hCpos'),
        Real.log_div (ne_of_gt (mul_pos hqipos hCpos')) (ne_of_gt hcipos),
        Real.log_mul (ne_of_gt hqipos) (ne_of_gt hCpos')]
      ring
    rw [← mul_sub, hlog]
    have hbound : Real.log ((q i : ℝ) * ((∑ i', c i') : ℝ) / (c i : ℝ)) ≤
        (q i : ℝ) * ((∑ i', c i') : ℝ) / (c i : ℝ) - 1 :=
      Real.log_le_sub_one_of_pos
        (div_pos (mul_pos hqipos hCpos') hcipos)
    calc (c i : ℝ) * Real.log ((q i : ℝ) * ((∑ i', c i') : ℝ) / (c i : ℝ))
        ≤ (c i : ℝ) * ((q i : ℝ) * ((∑ i', c i') : ℝ) / (c i : ℝ) - 1) :=
          mul_le_mul_of_nonneg_left hbound (le_of_lt hcipos)
      _ = ((∑ i', c i') : ℝ) * (q i : ℝ) - (c i : ℝ) := by
          field_simp
          ring
  have hsum := Finset.sum_le_sum hkey
  rw [Finset.sum_sub_distrib] at hsum
  have hsq : (∑ i ∈ Finset.univ.filter (fun i => c i ≠ 0),
      (((∑ i', c i') : ℝ) * (q i : ℝ) - (c i : ℝ))) ≤ 0 := by
    rw [Finset.sum_sub_distrib]
    have h1 : (∑ i ∈ Finset.univ.filter (fun i => c i ≠ 0), (c i : ℝ)) =
        ((∑ i', c i') : ℝ) :=
      Finset.sum_filter_of_ne fun i _ h => by
        intro hci
        exact h (by rw [hci]; push_cast; ring)
    have h2 : (∑ i ∈ Finset.univ.filter (fun i => c i ≠ 0),
        ((∑ i', c i') : ℝ) * (q i : ℝ)) ≤ ((∑ i', c i') : ℝ) := by
      rw [← Finset.mul_sum]
      have h3 : (∑ i ∈ Finset.univ.filter (fun i => c i ≠ 0), (q i : ℝ)) ≤ 1 := by
        have h4 : (∑ i ∈ Finset.univ.filter (fun i => c i ≠ 0), (q i : ℝ)) ≤
            ∑ i, (q i : ℝ) :=
          Finset.sum_le_sum_of_subset_of_nonneg (Finset.filter_subset _ _)
            fun i _ _ => by exact_mod_cast hq i
        have h5 : (∑ i, (q i : ℝ)) = 1 := by
          rw [← Rat.cast_sum, hqs]
          norm_num
        rw [h5] at h4
        exact h4
      calc ((∑ i', c i') : ℝ) *
            ∑ i ∈ Finset.univ.filter (fun i => c i ≠ 0), (q i : ℝ)
          ≤ ((∑ i', c i') : ℝ) * 1 := by
            refine mul_le_mul_of_nonneg_left h3 ?_
            exact_mod_cast le_of_lt hCpos
        _ = ((∑ i', c i') : ℝ) := mul_one _
    rw [h1]
    linarith
  linarith

lemma alphaAt_ne_zero_emission {K M : ℕ} (m : HMModel K M) (o : Fin M)
    (rest : List (Fin M)) (t : ℕ) (ht : t < rest.length + 1) (i : Fin K)
    (h : alphaAt m o rest t i ≠ 0) :
    m.emissionprob_ i ((o :: rest).getD t o) ≠ 0 := by
  cases t with
  | zero =>
      have halpha : alphaAt m o rest 0 i = m.startprob_ i * m.emissionprob_ i o :=
        rfl
      rw [halpha] at h
      intro hB
      apply h
      rw [show (o :: rest).getD 0 o = o from rfl] at hB
      rw [hB, mul_zero]
  | succ s =>
      have hs : s < rest.length := by omega
      have htake : rest.take (s + 1) = rest.take s ++ [rest[s]] := by
        rw [List.take_succ]
        congr 1
        rw [List.getElem?_eq_getElem hs]
        rfl
      have halpha : alphaAt m o rest (s + 1) i =
          forwardStep m (forwardVec m (forwardInit m o) (rest.take s))
            rest[s] i := by
        unfold alphaAt
        rw [htake, forwardVec_append]
        rfl
      have hget : (o :: rest).getD (s + 1) o = rest[s] := by
        rw [List.getD_cons_succ, List.getD_eq_getElem _ _ hs]
      rw [hget]
      rw [halpha] at h
      intro hB
      apply h
      show m.emissionprob_ i rest[s] * _ = 0
      rw [hB, zero_mul]

lemma fullPathProb_le_likelihood {K M : ℕ} (m : HMModel K M)
    (hpi : ∀ i, 0 ≤ m.startprob_ i) (hA : ∀ i j, 0 ≤ m.transmat_ i j)
    (hB : ∀ i k, 0 ≤ m.emissionprob_ i k) (o : Fin M) (rest : List (Fin M))
    (p : Fin (rest.length + 1) → Fin K) :
    fullPathProb m (o :: rest) p ≤ likelihood m (o :: rest) := by
  rw [likelihood_eq_sum_paths m o rest]
  exact Finset.single_le_sum
    (fun q _ => pathProbFrom_nonneg m hA hB (o :: rest) m.startprob_ hpi q)
    (Finset.mem_univ p)

lemma fullPathProb_le_fiber {K M : ℕ} (m : HMModel K M)
    (hpi : ∀ i, 0 ≤ m.startprob_ i) (hA : ∀ i j, 0 ≤ m.transmat_ i j)
    (hB : ∀ i k, 0 ≤ m.emissionprob_ i k) (o : Fin M) (rest : List (Fin M))
    (p : Fin (rest.length + 1) → Fin K) (t : ℕ) (ht : t < rest.length + 1) :
    fullPathProb m (o :: rest) p ≤
      alphaAt m o rest t (p ⟨t, ht⟩) * betaAt m rest t (p ⟨t, ht⟩) := by
  rw [← fiber_single m o rest t ht (p ⟨t, ht⟩)]
  exact Finset.single_le_sum
    (fun q _ => pathProbFrom_nonneg m hA hB (o :: rest) m.startprob_ hpi q)
    (Finset.mem_filter.2 ⟨Finset.mem_univ p, rfl⟩)

lemma fullPathProb_le_fiber_pair {K M : ℕ} (m : HMModel K M)
    (hpi : ∀ i, 0 ≤ m.startprob_ i) (hA : ∀ i j, 0 ≤ m.transmat_ i j)
    (hB : ∀ i k, 0 ≤ m.emissionprob_ i k) (o : Fin M) (rest : List (Fin M))
    (p : Fin (rest.length + 1) → Fin K) (t : ℕ) (ht : t < rest.length) :
    fullPathProb m (o :: rest) p ≤
      alphaAt m o rest t (p ⟨t, by omega⟩) *
        m.transmat_ (p ⟨t, by omega⟩) (p ⟨t + 1, by omega⟩) *
        m.emissionprob_ (p ⟨t + 1, by omega⟩) (rest.getD t o) *
        betaAt m rest (t + 1) (p ⟨t + 1, by omega⟩) := by
  rw [← fiber_pair m o rest t ht (p ⟨t, by omega⟩) (p ⟨t + 1, by omega⟩)]
  exact Finset.single_le_sum
    (fun q _ => pathProbFrom_nonneg m hA hB (o :: rest) m.startprob_ hpi q)
    (Finset.mem_filter.2 ⟨Finset.mem_univ p, rfl, rfl⟩)

lemma bwStep_support {K M : ℕ} (m : HMModel K M) (hm : IsValid m) (o : Fin M)
    (rest : List (Fin M)) (p : Fin (rest.length + 1) → Fin K)
    (hf : fullPathProb m (o :: rest) p ≠ 0) :
    fullPathProb (bwStep m (o :: rest)) (o :: rest) p ≠ 0 := by
  obtain ⟨hpi, hpisum, hA, hAsum, hB, hBsum⟩ := hm
  have hfpos : 0 < fullPathProb m (o :: rest) p :=
    lt_of_le_of_ne
      (pathProbFrom_nonneg m hA hB (o :: rest) m.startprob_ hpi p)
      (Ne.symm hf)
  have hL : likelihood m (o :: rest) ≠ 0 :=
    ne_of_gt (lt_of_lt_of_le hfpos
      (fullPathProb_le_likelihood m hpi hA hB o rest p))
  show pathProbFrom (bwStep m (o :: rest))
    (bwStep m (o :: rest)).startprob_ (o :: rest) p ≠ 0
  rw [pathProbFrom_eq_prod (bwStep m (o :: rest)) rest o
    (bwStep m (o :: rest)).startprob_ p]
  refine mul_ne_zero (mul_ne_zero ?_ ?_) ?_
  · -- the new initial probability at the path's first state
    have hGpos : 0 < alphaAt m o rest 0 (pext p 0) * betaAt m rest 0 (pext p 0) := by
      refine lt_of_lt_of_le hfpos ?_
      rw [pext_eq p 0 (Nat.succ_pos rest.length)]
      exact fullPathProb_le_fiber m hpi hA hB o rest p 0 (Nat.succ_pos _)
    simp only [bwStep]
    rw [if_neg (by rw [sum_alphaAt_betaAt m o rest 0]; exact hL)]
    rw [gammaAt_eq m o rest 0 (pext p 0)]
    exact div_ne_zero (ne_of_gt hGpos) hL
  · -- the new transition factors
    rw [Finset.prod_ne_zero_iff]
    intro t htm
    have ht : t < rest.length := Finset.mem_range.1 htm
    have hpair := fullPathProb_le_fiber_pair m hpi hA hB o rest p t ht
    rw [← pext_eq p t (by omega), ← pext_eq p (t + 1) (by omega)] at hpair
    have hpairpos : 0 < alphaAt m o rest t (pext p t) *
        m.transmat_ (pext p t) (pext p (t + 1)) *
        m.emissionprob_ (pext p (t + 1)) (rest.getD t o) *
        betaAt m rest (t + 1) (pext p (t + 1)) :=
      lt_of_lt_of_le hfpos hpair
    simp only [bwStep]
    by_cases hD : (∑ t' ∈ Finset.range rest.length,
        gammaAt m o rest t' (pext p t)) = 0
    · rw [if_pos hD]
      intro hz
      rw [hz] at hpairpos
      simp at hpairpos
      -- 0 < α * 0 * B * β is absurd
    · rw [if_neg hD]
      refine div_ne_zero (ne_of_gt ?_) hD
      have hterm : 0 < xiAt m o rest t (pext p t) (pext p (t + 1)) := by
        rw [xiAt_eq m o rest t ht]
        exact div_pos hpairpos
          (lt_of_le_of_ne
            (likelihood_nonneg m hpi hA hB (o :: rest)) (Ne.symm hL))
      refine lt_of_lt_of_le hterm ?_
      exact Finset.single_le_sum
        (fun t' _ => xiAt_nonneg m hpi hA hB o rest t' _ _) htm
  · -- the new emission factors
    rw [Finset.prod_ne_zero_iff]
    intro t htm
    have ht : t < rest.length + 1 := Finset.mem_range.1 htm
    have hsingle := fullPathProb_le_fiber m hpi hA hB o rest p t ht
    rw [← pext_eq p t ht] at hsingle
    have hGpos : 0 < alphaAt m o rest t (pext p t) *
        betaAt m rest t (pext p t) :=
      lt_of_lt_of_le hfpos hsingle
    simp only [bwStep]
    by_cases hD : (∑ t' ∈ Finset.range (rest.length + 1),
        gammaAt m o rest t' (pext p t)) = 0
    · rw [if_pos hD]
      have halpha : alphaAt m o rest t (pext p t) ≠ 0 := by
        intro hz
        rw [hz] at hGpos
        simp at hGpos
      exact alphaAt_ne_zero_emission m o rest t ht (pext p t) halpha
    · rw [if_neg hD]
      refine div_ne_zero (ne_of_gt ?_) hD
      have hterm : 0 < gammaAt m o rest t (pext p t) := by
        rw [gammaAt_eq m o rest t (pext p t)]
        exact div_pos hGpos
          (lt_of_le_of_ne
            (likelihood_nonneg m hpi hA hB (o :: rest)) (Ne.symm hL))
      refine lt_of_lt_of_le hterm ?_
      refine Finset.single_le_sum
        (fun t' _ => gammaAt_nonneg m hpi hA hB o rest t' _) ?_
      exact Finset.mem_filter.2 ⟨htm, rfl⟩

lemma div_div_same_cancel (x y z : ℚ) (hz : z ≠ 0) :
    (x / z) / (y / z) = x / y := by
  rcases eq_or_ne y 0 with hy | hy
  · simp [hy]
  · field_simp

lemma bwStep_weight_ineq {K M : ℕ} (m : HMModel K M) (hm : IsValid m)
    (o : Fin M) (rest : List (Fin M))
    (hL : likelihood m (o :: rest) ≠ 0) :
    (∑ p : Fin (rest.length + 1) → Fin K,
      (fullPathProb m (o :: rest) p : ℝ) *
        Real.log ((fullPathProb m (o :: rest) p : ℚ) : ℝ)) ≤
    ∑ p : Fin (rest.length + 1) → Fin K,
      (fullPathProb m (o :: rest) p : ℝ) *
        Real.log ((fullPathProb (bwStep m (o :: rest)) (o :: rest) p : ℚ) : ℝ) := by
  obtain ⟨hpi, hpisum, hA, hAsum, hB, hBsum⟩ := hm
  rw [sum_weight_log m m o rest (fun p h => h),
    sum_weight_log m (bwStep m (o :: rest)) o rest
      (bwStep_support m ⟨hpi, hpisum, hA, hAsum, hB, hBsum⟩ o rest)]
  have hz : ¬ (∑ i', alphaAt m o rest 0 i' * betaAt m rest 0 i') = 0 := by
    rw [sum_alphaAt_betaAt m o rest 0]
    exact hL
  refine add_le_add (add_le_add ?_ ?_) ?_
  · -- initial-distribution block
    have hpieq : ∀ i, (bwStep m (o :: rest)).startprob_ i =
        alphaAt m o rest 0 i * betaAt m rest 0 i /
          ∑ i', alphaAt m o rest 0 i' * betaAt m rest 0 i' := by
      intro i
      simp only [bwStep]
      rw [if_neg hz]
      rfl
    refine le_trans (gibbs_block
      (fun i => alphaAt m o rest 0 i * betaAt m rest 0 i) m.startprob_
      (fun i => mul_nonneg (alphaAt_nonneg m hpi hA hB o rest 0 i)
        (betaAt_nonneg m hA hB rest 0 i))
      hpi hpisum ?_ hz) (le_of_eq ?_)
    · intro i hci hqi
      apply hci
      show alphaAt m o rest 0 i * betaAt m rest 0 i = 0
      have h0 : alphaAt m o rest 0 i =
          m.startprob_ i * m.emissionprob_ i o := rfl
      rw [h0, hqi, zero_mul, zero_mul]
    · exact Finset.sum_congr rfl fun i _ => by rw [hpieq i]
  · -- transition block
    refine Finset.sum_le_sum fun i _ => ?_
    by_cases hD : (∑ t ∈ Finset.range rest.length, gammaAt m o rest t i) = 0
    · refine le_of_eq (Finset.sum_congr rfl fun j _ => ?_)
      have heq : (bwStep m (o :: rest)).transmat_ i j = m.transmat_ i j := by
        simp only [bwStep]
        rw [if_pos hD]
      rw [heq]
    · have hgam : (∑ t ∈ Finset.range rest.length, gammaAt m o rest t i) =
          (∑ t ∈ Finset.range rest.length,
            alphaAt m o rest t i * betaAt m rest t i) /
            likelihood m (o :: rest) := by
        rw [Finset.sum_congr rfl fun t _ => gammaAt_eq m o rest t i,
          Finset.sum_div]
      have hGne : (∑ t ∈ Finset.range rest.length,
          alphaAt m o rest t i * betaAt m rest t i) ≠ 0 := by
        intro hzero
        apply hD
        rw [hgam, hzero, zero_div]
      have hsumc : (∑ j', ∑ t ∈ Finset.range rest.length,
          alphaAt m o rest t i * m.transmat_ i j' *
            m.emissionprob_ j' (rest.getD t o) * betaAt m rest (t + 1) j') =
          ∑ t ∈ Finset.range rest.length,
            alphaAt m o rest t i * betaAt m rest t i := by
        rw [Finset.sum_comm]
        exact Finset.sum_congr rfl fun t htm =>
          sum_xiNum m o rest t (Finset.mem_range.1 htm) i
      have hAeq : ∀ j, (bwStep m (o :: rest)).transmat_ i j =
          (∑ t ∈ Finset.range rest.length,
            alphaAt m o rest t i * m.transmat_ i j *
              m.emissionprob_ j (rest.getD t o) * betaAt m rest (t + 1) j) /
          ∑ j', ∑ t ∈ Finset.range rest.length,
            alphaAt m o rest t i * m.transmat_ i j' *
              m.emissionprob_ j' (rest.getD t o) * betaAt m rest (t + 1) j' := by
        intro j
        simp only [bwStep]
        rw [if_neg hD]
        have hxi : (∑ t ∈ Finset.range rest.length, xiAt m o rest t i j) =
            (∑ t ∈ Finset.range rest.length,
              alphaAt m o rest t i * m.transmat_ i j *
                m.emissionprob_ j (rest.getD t o) * betaAt m rest (t + 1) j) /
              likelihood m (o :: rest) := by
          rw [Finset.sum_congr rfl fun t htm =>
            xiAt_eq m o rest t (Finset.mem_range.1 htm) i j, Finset.sum_div]
        rw [hxi, hgam, div_div_same_cancel _ _ _ hL, hsumc]
      refine le_trans (gibbs_block
        (fun j => ∑ t ∈ Finset.range rest.length,
          alphaAt m o rest t i * m.transmat_ i j *
            m.emissionprob_ j (rest.getD t o) * betaAt m rest (t + 1) j)
        (m.transmat_ i)
        (fun j => Finset.sum_nonneg fun t _ =>
          mul_nonneg (mul_nonneg (mul_nonneg
            (alphaAt_nonneg m hpi hA hB o rest t i) (hA i j)) (hB j _))
            (betaAt_nonneg m hA hB rest (t + 1) j))
        (hA i) (hAsum i) ?_ ?_) (le_of_eq ?_)
      · intro j hcj hAij
        apply hcj
        show (∑ t ∈ Finset.range rest.length,
          alphaAt m o rest t i * m.transmat_ i j *
            m.emissionprob_ j (rest.getD t o) * betaAt m rest (t + 1) j) = 0
        refine Finset.sum_eq_zero fun t _ => ?_
        rw [hAij]
        ring
      · rw [hsumc]
        exact hGne
      · refine Finset.sum_congr rfl fun j _ => ?_
        rw [hAeq j, hsumc]
  · -- emission block
    refine Finset.sum_le_sum fun i _ => ?_
    by_cases hD : (∑ t ∈ Finset.range (rest.length + 1),
        gammaAt m o rest t i) = 0
    · refine le_of_eq (Finset.sum_congr rfl fun k _ => ?_)
      have heq : (bwStep m (o :: rest)).emissionprob_ i k =
          m.emissionprob_ i k := by
        simp only [bwStep]
        rw [if_pos hD]
      rw [heq]
    · have hgam : (∑ t ∈ Finset.range (rest.length + 1), gammaAt m o rest t i) =
          (∑ t ∈ Finset.range (rest.length + 1),
            alphaAt m o rest t i * betaAt m rest t i) /
            likelihood m (o :: rest) := by
        rw [Finset.sum_congr rfl fun t _ => gammaAt_eq m o rest t i,
          Finset.sum_div]
      have hGne : (∑ t ∈ Finset.range (rest.length + 1),
          alphaAt m o rest t i * betaAt m rest t i) ≠ 0 := by
        intro hzero
        apply hD
        rw [hgam, hzero, zero_div]
      have hsumc : (∑ k', ∑ t ∈ (Finset.range (rest.length + 1)).filter
            (fun t => (o :: rest).getD t o = k'),
          alphaAt m o rest t i * betaAt m rest t i) =
          ∑ t ∈ Finset.range (rest.length + 1),
            alphaAt m o rest t i * betaAt m rest t i :=
        Finset.sum_fiberwise (Finset.range (rest.length + 1))
          (fun t => (o :: rest).getD t o)
          (fun t => alphaAt m o rest t i * betaAt m rest t i)
      have hBeq : ∀ k, (bwStep m (o :: rest)).emissionprob_ i k =
          (∑ t ∈ (Finset.range (rest.length + 1)).filter
            (fun t => (o :: rest).getD t o = k),
            alphaAt m o rest t i * betaAt m rest t i) /
          ∑ k', ∑ t ∈ (Finset.range (rest.length + 1)).filter
            (fun t => (o :: rest).getD t o = k'),
            alphaAt m o rest t i * betaAt m rest t i := by
        intro k
        simp only [bwStep]
        rw [if_neg hD]
        have hnum : (∑ t ∈ (Finset.range (rest.length + 1)).filter
            (fun t => (o :: rest).getD t o = k), gammaAt m o rest t i) =
            (∑ t ∈ (Finset.range (rest.length + 1)).filter
              (fun t => (o :: rest).getD t o = k),
              alphaAt m o rest t i * betaAt m rest t i) /
              likelihood m (o :: rest) := by
          rw [Finset.sum_congr rfl fun t _ => gammaAt_eq m o rest t i,
            Finset.sum_div]
        rw [hnum, hgam, div_div_same_cancel _ _ _ hL, hsumc]
      refine le_trans (gibbs_block
        (fun k => ∑ t ∈ (Finset.range (rest.length + 1)).filter
          (fun t => (o :: rest).getD t o = k),
          alphaAt m o rest t i * betaAt m rest t i)
        (m.emissionprob_ i)
        (fun k => Finset.sum_nonneg fun t _ =>
          mul_nonneg (alphaAt_nonneg m hpi hA hB o rest t i)
            (betaAt_nonneg m hA hB rest t i))
        (hB i) (hBsum i) ?_ ?_) (le_of_eq ?_)
      · intro k hck hBik
        have hck' : (∑ t ∈ (Finset.range (rest.length + 1)).filter
            (fun t => (o :: rest).getD t o = k),
            alphaAt m o rest t i * betaAt m rest t i) ≠ 0 := hck
        obtain ⟨t, htm, hGt⟩ := Finset.exists_ne_zero_of_sum_ne_zero hck'
        have hmem := Finset.mem_filter.1 htm
        have halpha : alphaAt m o rest t i ≠ 0 := by
          intro hz0
          apply hGt
          rw [hz0, zero_mul]
        have := alphaAt_ne_zero_emission m o rest t
          (Finset.mem_range.1 hmem.1) i halpha
        rw [hmem.2] at this
        exact this hBik
      · rw [hsumc]
        exact hGne
      · refine Finset.sum_congr rfl fun k _ => ?_
        rw [hBeq k, hsumc]

lemma bwStep_likelihood_le {K M : ℕ} (m : HMModel K M) (hm : IsValid m)
    (obs : List (Fin M)) :
    likelihood m obs ≤ likelihood (bwStep m obs) obs := by
  cases obs with
  | nil => exact le_of_eq rfl
  | cons o rest =>
      have hm' := bwStep_valid m hm (o :: rest)
      obtain ⟨hpi, hpisum, hA, hAsum, hB, hBsum⟩ := hm
      obtain ⟨hpi', hpisum', hA', hAsum', hB', hBsum'⟩ := hm'
      by_cases hL : likelihood m (o :: rest) = 0
      · rw [hL]
        exact likelihood_nonneg (bwStep m (o :: rest)) hpi' hA' hB' (o :: rest)
      · have hweight := bwStep_weight_ineq m
          ⟨hpi, hpisum, hA, hAsum, hB, hBsum⟩ o rest hL
        have hfnonneg : ∀ p : Fin (rest.length + 1) → Fin K,
            0 ≤ fullPathProb m (o :: rest) p :=
          fun p => pathProbFrom_nonneg m hA hB (o :: rest) m.startprob_ hpi p
        have hgnonneg : ∀ p : Fin (rest.length + 1) → Fin K,
            0 ≤ fullPathProb (bwStep m (o :: rest)) (o :: rest) p :=
          fun p => pathProbFrom_nonneg _ hA' hB' (o :: rest) _ hpi' p
        have hrestrict : ∀ F : (Fin (rest.length + 1) → Fin K) → ℝ,
            (∑ p : Fin (rest.length + 1) → Fin K,
              (fullPathProb m (o :: rest) p : ℝ) * F p) =
              ∑ p ∈ Finset.univ.filter
                (fun p : Fin (rest.length + 1) → Fin K =>
                  fullPathProb m (o :: rest) p ≠ 0),
                (fullPathProb m (o :: rest) p : ℝ) * F p := by
          intro F
          refine (Finset.sum_filter_of_ne fun p _ h => ?_).symm
          intro hf0
          exact h (by rw [hf0]; push_cast; ring)
        have hkey : ∀ p ∈ Finset.univ.filter
            (fun p : Fin (rest.length + 1) → Fin K =>
              fullPathProb m (o :: rest) p ≠ 0),
            (fullPathProb m (o :: rest) p : ℝ) *
                Real.log ((fullPathProb (bwStep m (o :: rest)) (o :: rest) p : ℚ) : ℝ) -
              (fullPathProb m (o :: rest) p : ℝ) *
                Real.log ((fullPathProb m (o :: rest) p : ℚ) : ℝ) ≤
            (fullPathProb (bwStep m (o :: rest)) (o :: rest) p : ℝ) -
              (fullPathProb m (o :: rest) p : ℝ) := by
          intro p hp
          have hfne := (Finset.mem_filter.1 hp).2
          have hfpos : (0 : ℝ) < (fullPathProb m (o :: rest) p : ℝ) := by
            exact_mod_cast lt_of_le_of_ne (hfnonneg p) (Ne.symm hfne)
          have hgne := bwStep_support m
            ⟨hpi, hpisum, hA, hAsum, hB, hBsum⟩ o rest p hfne
          have hgpos : (0 : ℝ) <
              (fullPathProb (bwStep m (o :: rest)) (o :: rest) p : ℝ) := by
            exact_mod_cast lt_of_le_of_ne (hgnonneg p) (Ne.symm hgne)
          rw [← mul_sub, ← Real.log_div (ne_of_gt hgpos) (ne_of_gt hfpos)]
          have hlog := Real.log_le_sub_one_of_pos (div_pos hgpos hfpos)
          calc (fullPathProb m (o :: rest) p : ℝ) *
                Real.log ((fullPathProb (bwStep m (o :: rest)) (o :: rest) p : ℝ) /
                  (fullPathProb m (o :: rest) p : ℝ))
              ≤ (fullPathProb m (o :: rest) p : ℝ) *
                  ((fullPathProb (bwStep m (o :: rest)) (o :: rest) p : ℝ) /
                    (fullPathProb m (o :: rest) p : ℝ) - 1) :=
                mul_le_mul_of_nonneg_left hlog (le_of_lt hfpos)
            _ = (fullPathProb (bwStep m (o :: rest)) (o :: rest) p : ℝ) -
                  (fullPathProb m (o :: rest) p : ℝ) := by
                field_simp
        have hLsum : ((likelihood m (o :: rest) : ℚ) : ℝ) =
            ∑ p : Fin (rest.length + 1) → Fin K,
              (fullPathProb m (o :: rest) p : ℝ) := by
          rw [likelihood_eq_sum_paths m o rest]
          exact Rat.cast_sum _ _
        have hLsum' : ((likelihood (bwStep m (o :: rest)) (o :: rest) : ℚ) : ℝ) =
            ∑ p : Fin (rest.length + 1) → Fin K,
              (fullPathProb (bwStep m (o :: rest)) (o :: rest) p : ℝ) := by
          rw [likelihood_eq_sum_paths (bwStep m (o :: rest)) o rest]
          exact Rat.cast_sum _ _
        have hfS : (∑ p ∈ Finset.univ.filter
            (fun p : Fin (rest.length + 1) → Fin K =>
              fullPathProb m (o :: rest) p ≠ 0),
            (fullPathProb m (o :: rest) p : ℝ)) =
            ∑ p : Fin (rest.length + 1) → Fin K,
              (fullPathProb m (o :: rest) p : ℝ) :=
          Finset.sum_filter_of_ne fun p _ h => by
            intro hf0
            exact h (by rw [hf0]; push_cast; ring)
        have hgS : (∑ p ∈ Finset.univ.filter
            (fun p : Fin (rest.length + 1) → Fin K =>
              fullPathProb m (o :: rest) p ≠ 0),
            (fullPathProb (bwStep m (o :: rest)) (o :: rest) p : ℝ)) ≤
            ∑ p : Fin (rest.length + 1) → Fin K,
              (fullPathProb (bwStep m (o :: rest)) (o :: rest) p : ℝ) :=
          Finset.sum_le_sum_of_subset_of_nonneg (Finset.filter_subset _ _)
            fun p _ _ => by exact_mod_cast hgnonneg p
        have hchain : (0 : ℝ) ≤
            ((likelihood (bwStep m (o :: rest)) (o :: rest) : ℚ) : ℝ) -
              ((likelihood m (o :: rest) : ℚ) : ℝ) := by
          have h1 : (0 : ℝ) ≤
              (∑ p : Fin (rest.length + 1) → Fin K,
                (fullPathProb m (o :: rest) p : ℝ) *
                  Real.log ((fullPathProb (bwStep m (o :: rest)) (o :: rest) p : ℚ) : ℝ)) -
              ∑ p : Fin (rest.length + 1) → Fin K,
                (fullPathProb m (o :: rest) p : ℝ) *
                  Real.log ((fullPathProb m (o :: rest) p : ℚ) : ℝ) := by
            linarith
          rw [hrestrict (fun p =>
              Real.log ((fullPathProb (bwStep m (o :: rest)) (o :: rest) p : ℚ) : ℝ)),
            hrestrict (fun p =>
              Real.log ((fullPathProb m (o :: rest) p : ℚ) : ℝ)),
            ← Finset.sum_sub_distrib] at h1
          have h2 := le_trans h1 (Finset.sum_le_sum hkey)
          rw [Finset.sum_sub_distrib, hfS] at h2
          rw [hLsum, hLsum']
          linarith
        have : ((likelihood m (o :: rest) : ℚ) : ℝ) ≤
            ((likelihood (bwStep m (o :: rest)) (o :: rest) : ℚ) : ℝ) := by
          linarith
        exact_mod_cast this

/-- C2: Baum-Welch monotonicity.  For every validated model, observation
sequence and iteration count `n`, the likelihood of the data does not
decrease from one Baum-Welch iteration (`bwStep`, the iteration performed by
`fit`) to the next.  The statement is in exact linear scale over ℚ: since
`Real.log` is monotone, the spec's log-likelihood sequence is non-decreasing,
and in exact arithmetic no numerical tolerance is needed. -/
theorem claim_C2_baum_welch_monotone {K M : ℕ} (m0 : HMModel K M)
    (hm0 : IsValid m0) (obs : List (Fin M)) (n : ℕ) :
    likelihood ((fun m => bwStep m obs)^[n] m0) obs ≤
      likelihood ((fun m => bwStep m obs)^[n + 1] m0) obs := by
  have hvalid : ∀ k, IsValid ((fun m => bwStep m obs)^[k] m0) := by
    intro k
    induction k with
    | zero => exact hm0
    | succ k ih =>
        rw [Function.iterate_succ_apply']
        exact bwStep_valid _ ih obs
  rw [Function.iterate_succ_apply']
  exact bwStep_likelihood_le _ (hvalid n) obs

/-- C2 witness: one concrete iteration step at the demonstration model. -/
theorem claim_C2_witness :
    likelihood ((fun m => bwStep m [0, 1])^[1] demoModel) [0, 1] ≤
      likelihood ((fun m => bwStep m [0, 1])^[2] demoModel) [0, 1] :=
  claim_C2_baum_welch_monotone demoModel demoModel_valid [0, 1] 1

/-- C1: the Viterbi bound.  For every validated model and non-empty
observation sequence, the Viterbi path probability is at most the Scorer's
sequence likelihood (stated in exact linear scale; `Real.log` is monotone,
so the log-scale inequality of the spec is equivalent), and equality forces
the degenerate situation in which a single state path carries all the
probability: some path has the full likelihood as its probability and every
other path has probability zero. -/
theorem claim_C1_viterbi_bound {K M : ℕ} [NeZero K] (m : HMModel K M)
    (hm : IsValid m) (obs : List (Fin M)) (hobs : obs ≠ []) :
    viterbiProb m obs ≤ likelihood m obs ∧
    (viterbiProb m obs = likelihood m obs →
      ∃ p : Fin obs.length → Fin K, fullPathProb m obs p = likelihood m obs ∧
        ∀ q : Fin obs.length → Fin K, q ≠ p → fullPathProb m obs q = 0) := by
  obtain ⟨o, rest, rfl⟩ := List.exists_cons_of_ne_nil hobs
  obtain ⟨hpi, -, hA, -, hB, -⟩ := hm
  have hf : ∀ p : Fin (o :: rest).length → Fin K,
      0 ≤ fullPathProb m (o :: rest) p := fun p =>
    pathProbFrom_nonneg m hA hB (o :: rest) m.startprob_ hpi p
  have hV := viterbiProb_eq_sup_paths m hpi hA hB o rest
  have hL := likelihood_eq_sum_paths m o rest
  constructor
  · rw [hV, hL]
    refine Finset.sup'_le _ _ fun p _ => ?_
    exact Finset.single_le_sum (fun q _ => hf q) (Finset.mem_univ p)
  · intro heq
    rw [hV, hL] at heq
    obtain ⟨p, -, hpeq⟩ :=
      Finset.exists_mem_eq_sup' (Finset.univ_nonempty)
        (fun p : Fin (o :: rest).length → Fin K => fullPathProb m (o :: rest) p)
    have hple : fullPathProb m (o :: rest) p =
        ∑ q : Fin (o :: rest).length → Fin K, fullPathProb m (o :: rest) q := by
      rw [← hpeq, heq]
    refine ⟨p, ?_, ?_⟩
    · rw [hL, ← hple]
    · have hzero : ∑ q ∈ Finset.univ.erase p, fullPathProb m (o :: rest) q = 0 := by
        have hsplit := Finset.add_sum_erase Finset.univ
          (fun q : Fin (o :: rest).length → Fin K => fullPathProb m (o :: rest) q)
          (Finset.mem_univ p)
        rw [← hple] at hsplit
        linarith
      intro q hq
      have hqmem : q ∈ Finset.univ.erase p := Finset.mem_erase.2 ⟨hq, Finset.mem_univ q⟩
      exact (Finset.sum_eq_zero_iff_of_nonneg fun r _ => hf r).1 hzero q hqmem

/-- C1 witness at the demonstration model and the single observation 散歩. -/
theorem claim_C1_witness :
    viterbiProb demoModel [0] ≤ likelihood demoModel [0] ∧
    (viterbiProb demoModel [0] = likelihood demoModel [0] →
      ∃ p : Fin ([0] : List (Fin 3)).length → Fin 2,
        fullPathProb demoModel [0] p = likelihood demoModel [0] ∧
        ∀ q : Fin ([0] : List (Fin 3)).length → Fin 2, q ≠ p →
          fullPathProb demoModel [0] q = 0) :=
  claim_C1_viterbi_bound demoModel demoModel_valid [0] (by simp)

end HMM
